import Mathlib

/-!
Shallow embedding of the frmz library (src/src/index.ts): a JS value model,
the type guards, schema inference, the deep mutation-intercepting wrapper,
FormData flattening, and the frmz entry point, together with a model of the
external zod validator boundary and of the host structuredClone builtin.

Blob/File identity is tracked through a numeric id: two blobs are the same
JS reference exactly when their ids agree.  structuredClone allocates fresh
ids from a counter, matching the host behaviour of cloning Blob objects.
-/

namespace Frmz

/-- JS runtime values as they occur in the library.  vSeq and vRec carry a
Bool recording whether the container is wrapped in the mutation Proxy; a
plain caller-supplied value has all flags false.  vDate models exotic
objects whose typeof is object but that carry no own enumerable keys;
vFunc and vSymbol model values of typeof function and symbol.  Field lists
of vRec are in JS own-enumerable-key iteration order. -/
inductive Value : Type where
| vNull : Value
| vUndef : Value
| vBool : Bool → Value
| vNum : Int → Value
| vStr : String → Value
| vBlob : Nat → Value
| vSeq : Bool → List Value → Value
| vRec : Bool → List (String × Value) → Value
| vDate : Nat → Value
| vFunc : Nat → Value
| vSymbol : Nat → Value

/-- The JS typeof operator on the modelled values. -/
def typeofStr : Value → String
| .vNull => "object"
| .vUndef => "undefined"
| .vBool _ => "boolean"
| .vNum _ => "number"
| .vStr _ => "string"
| .vBlob _ => "object"
| .vSeq _ _ => "object"
| .vRec _ _ => "object"
| .vDate _ => "object"
| .vFunc _ => "function"
| .vSymbol _ => "symbol"

def isNullV : Value → Bool
| .vNull => true
| _ => false

/-- Source isProxiable: typeof value is object and value is not null. -/
def isProxiable (v : Value) : Bool :=
  typeofStr v == "object" && !(isNullV v)

/-- Source isBlobLike: value instanceof Blob or File. -/
def isBlobLike : Value → Bool
| .vBlob _ => true
| _ => false

/-- Schemas of the external validator (zod), restricted to the constructors
the library actually builds: the accept-anything schema, the primitive-kind
schemas, instanceof-Blob, arrays, ordered unions and object shapes. -/
inductive Schema : Type where
| unknown : Schema
| str : Schema
| num : Schema
| bool : Schema
| null : Schema
| undef : Schema
| blob : Schema
| array : Schema → Schema
| union : List Schema → Schema
| object : List (String × Schema) → Schema

/-- The classification the inferSchema element/field loops apply to a value
that is not a proxiable non-blob: instanceof Blob, then typeof string,
number, boolean, then null, undefined, else z.unknown(). -/
def inferClassify : Value → Schema
| .vBlob _ => .blob
| .vStr _ => .str
| .vNum _ => .num
| .vBool _ => .bool
| .vNull => .null
| .vUndef => .undef
| _ => .unknown

mutual

/-- Source inferSchema.  Arrays map to z.array of the union of the element
schemas (z.unknown for an empty array); other proxiable non-blob values map
to z.object over their own enumerable keys (a Date has none); blobs map to
z.instanceof(Blob); everything else falls through to z.unknown(). -/
def inferSchema : Value → Schema
| .vSeq _ es =>
    let ts := inferList es
    .array (if ts.length > 0 then .union ts else .unknown)
| .vRec _ fs => .object (inferFields fs)
| .vDate _ => .object []
| .vBlob _ => .blob
| _ => .unknown

/-- The element loop of inferSchema over an array. -/
def inferList : List Value → List Schema
| [] => []
| v :: vs =>
    (if isProxiable v && !isBlobLike v then inferSchema v else inferClassify v)
      :: inferList vs

/-- The field loop of inferSchema over an object. -/
def inferFields : List (String × Value) → List (String × Schema)
| [] => []
| (k, v) :: fs =>
    (k, if isProxiable v && !isBlobLike v then inferSchema v else inferClassify v)
      :: inferFields fs

end

/-- The per-element (and per-field) schema inference performed inside the
loops of inferSchema: full recursion on proxiable non-blob values, exact
classification otherwise. -/
def inferElement (v : Value) : Schema :=
  if isProxiable v && !isBlobLike v then inferSchema v else inferClassify v

/-- First value in the field list whose key matches, like JS property lookup
on the modelled own-enumerable fields. -/
def lookupField : List (String × Value) → String → Option Value
| [], _ => none
| (k, v) :: fs, key => if k = key then some v else lookupField fs key

mutual

/-- Modelled from the spec: the external validator boundary (zod) that the
repository consumes but does not contain.  parse accepts a value against a
schema and returns the accepted value, or none on mismatch.  The
accept-anything schema accepts everything unchanged; primitive-kind schemas
accept exactly their kind; the binary schema accepts exactly blobs; an
array schema accepts sequences whose every element its element schema
accepts, rebuilding the sequence; a union tries its options in order and
returns the first success; an object schema accepts records, parses each
shape field against the looked-up value (a missing key reads as undefined)
and rebuilds the record from the shape, stripping keys not in the shape. -/
def parse : Schema → Value → Option Value
| .unknown, v => some v
| .str, v => match v with | .vStr _ => some v | _ => none
| .num, v => match v with | .vNum _ => some v | _ => none
| .bool, v => match v with | .vBool _ => some v | _ => none
| .null, v => match v with | .vNull => some v | _ => none
| .undef, v => match v with | .vUndef => some v | _ => none
| .blob, v => match v with | .vBlob _ => some v | _ => none
| .array s, v =>
    match v with
    | .vSeq _ es => (parseList s es).map (fun ws => .vSeq false ws)
    | _ => none
| .union opts, v => parseFirst opts v
| .object shape, v =>
    match v with
    | .vRec _ fs => (parseShape shape fs).map (fun ws => .vRec false ws)
    | _ => none
termination_by s _ => (sizeOf s, 0)

def parseList : Schema → List Value → Option (List Value)
| _, [] => some []
| s, v :: vs =>
    match parse s v with
    | none => none
    | some w =>
        match parseList s vs with
        | none => none
        | some ws => some (w :: ws)
termination_by s vs => (sizeOf s, 1 + sizeOf vs)

def parseFirst : List Schema → Value → Option Value
| [], _ => none
| s :: ss, v =>
    match parse s v with
    | some w => some w
    | none => parseFirst ss v
termination_by ss _ => (sizeOf ss, 0)

def parseShape : List (String × Schema) → List (String × Value) → Option (List (String × Value))
| [], _ => some []
| (k, s) :: rest, fs =>
    match parse s ((lookupField fs k).getD .vUndef) with
    | none => none
    | some w =>
        match parseShape rest fs with
        | none => none
        | some ws => some ((k, w) :: ws)
termination_by shape _ => (sizeOf shape, 0)

end

/-- JS String(v) coercion for the leaf values flattening stringifies.  The
host's textual form of a Date or a function source is environment-dependent
and not observed by any property here; fixed placeholder strings stand in
for them. -/
def jsString : Value → String
| .vNull => "null"
| .vUndef => "undefined"
| .vBool b => if b then "true" else "false"
| .vNum n => toString n
| .vStr s => s
| .vBlob _ => "[object Blob]"
| .vSeq _ _ => ""
| .vRec _ _ => ""
| .vDate _ => "[object Date]"
| .vFunc _ => "function"
| .vSymbol _ => "Symbol()"

/-- An entry value of the accumulated FormData: a string, or a raw blob. -/
inductive FEntry : Type where
| str : String → FEntry
| blob : Nat → FEntry
deriving Repr, DecidableEq

/-- TransportObject: the FormData accumulator, an ordered list of appended
(key, value) entries. -/
def FD := List (String × FEntry)

mutual

/-- Source appendToFormData.  Arrays iterate elements with positional keys,
other proxiable non-blob values iterate their entries with field-name keys
(a Date has none), and a bare blob or other leaf at the top level is only
appended when the parent key is non-empty. -/
def appendToFormData (fd : List (String × FEntry)) (data : Value) (parentKey : String) :
    List (String × FEntry) :=
  match data with
  | .vSeq _ es => atfSeq fd es parentKey 0
  | .vRec _ fs => atfRec fd fs parentKey
  | .vDate _ => fd
  | .vBlob i => if parentKey = "" then fd else fd ++ [(parentKey, .blob i)]
  | v => if parentKey = "" then fd else fd ++ [(parentKey, .str (jsString v))]

/-- The forEach loop of appendToFormData over an array, carrying the
element index. -/
def atfSeq (fd : List (String × FEntry)) (es : List Value) (parentKey : String) (index : Nat) :
    List (String × FEntry) :=
  match es with
  | [] => fd
  | v :: rest =>
      let key := if parentKey = "" then toString index else
        parentKey ++ "[" ++ toString index ++ "]"
      let fd2 :=
        if isProxiable v && !isBlobLike v then appendToFormData fd v key
        else match v with
          | .vBlob i => fd ++ [(key, .blob i)]
          | _ => fd ++ [(key, .str (jsString v))]
      atfSeq fd2 rest parentKey (index + 1)

/-- The Object.entries loop of appendToFormData over an object. -/
def atfRec (fd : List (String × FEntry)) (fs : List (String × Value)) (parentKey : String) :
    List (String × FEntry) :=
  match fs with
  | [] => fd
  | (k, v) :: rest =>
      let newKey := if parentKey = "" then k else parentKey ++ "[" ++ k ++ "]"
      let fd2 :=
        if isProxiable v && !isBlobLike v then appendToFormData fd v newKey
        else match v with
          | .vBlob i => fd ++ [(newKey, .blob i)]
          | _ => fd ++ [(newKey, .str (jsString v))]
      atfRec fd2 rest parentKey

end

mutual

/-- Modelled from the spec and the host platform: structuredClone, the
builtin the entry point uses as its deep copy.  Containers are duplicated
structurally; a cloned Blob is a new object, so it receives a fresh
identity drawn from the counter; functions and symbols are not cloneable
and make the builtin throw (none).  Proxies do not survive cloning, so the
result carries no wrapping. -/
def sClone : Value → Nat → Option (Value × Nat)
| .vBlob _, c => some (.vBlob c, c + 1)
| .vFunc _, _ => none
| .vSymbol _, _ => none
| .vSeq _ es, c =>
    match sCloneList es c with
    | none => none
    | some (ws, c2) => some (.vSeq false ws, c2)
| .vRec _ fs, c =>
    match sCloneFields fs c with
    | none => none
    | some (ws, c2) => some (.vRec false ws, c2)
| v, c => some (v, c)

def sCloneList : List Value → Nat → Option (List Value × Nat)
| [], c => some ([], c)
| v :: vs, c =>
    match sClone v c with
    | none => none
    | some (w, c2) =>
        match sCloneList vs c2 with
        | none => none
        | some (ws, c3) => some (w :: ws, c3)

def sCloneFields : List (String × Value) → Nat → Option (List (String × Value) × Nat)
| [], c => some ([], c)
| (k, v) :: fs, c =>
    match sClone v c with
    | none => none
    | some (w, c2) =>
        match sCloneFields fs c2 with
        | none => none
        | some (ws, c3) => some ((k, w) :: ws, c3)

end

mutual

/-- Source createDeepProxy: replace every proxiable non-blob child by its
own deep proxy, then wrap the container itself (flag set to true).  A
non-container argument has no own enumerable keys to walk; the Proxy
wrapper the source would still place around such an object intercepts
nothing observed here and is modelled as the identity. -/
def createDeepProxy : Value → Value
| .vSeq _ es => .vSeq true (cdpList es)
| .vRec _ fs => .vRec true (cdpFields fs)
| v => v

def cdpList : List Value → List Value
| [] => []
| v :: vs =>
    (if isProxiable v && !isBlobLike v then createDeepProxy v else v) :: cdpList vs

def cdpFields : List (String × Value) → List (String × Value)
| [] => []
| (k, v) :: fs =>
    (k, if isProxiable v && !isBlobLike v then createDeepProxy v else v) :: cdpFields fs

end

/-- The transformation the proxy set trap applies to an incoming value
before storing it: proxiable non-blob values are deep-proxied, a blob or
any other value is passed through unchanged. -/
def wrapAssign (v : Value) : Value :=
  if isProxiable v && !isBlobLike v then createDeepProxy v else v

/-- A property key: an object field name or an array index. -/
inductive Key : Type where
| field : String → Key
| idx : Nat → Key
deriving Repr, DecidableEq

/-- Update the first field with the given key, or append a new field, like
a JS property write on the modelled field list. -/
def setField : List (String × Value) → String → Value → List (String × Value)
| [], k, v => [(k, v)]
| (k2, v2) :: fs, k, v =>
    if k2 = k then (k2, v) :: fs else (k2, v2) :: setField fs k v

/-- Reflect.set on the underlying container.  Index writes are modelled
in range only; sparse-array extension is outside the model. -/
def rawSet : Value → Key → Value → Option Value
| .vRec w fs, .field k, v => some (.vRec w (setField fs k v))
| .vSeq w es, .idx i, v =>
    if i < es.length then some (.vSeq w (es.set i v)) else none
| _, _, _ => none

/-- Property read through the (forwarding) proxy. -/
def getKey : Value → Key → Option Value
| .vRec _ fs, .field k => lookupField fs k
| .vSeq _ es, .idx i => es[i]?
| _, _ => none

/-- Source proxy set trap: wrap the incoming value if it is a proxiable
non-blob, store it with Reflect.set, and report true unconditionally. -/
def handlerSet (target : Value) (k : Key) (v : Value) : Option Value × Bool :=
  (rawSet target k (wrapAssign v), true)

def isWrapped : Value → Bool
| .vSeq w _ => w
| .vRec w _ => w
| _ => false

/-- A write through the handle at a path: navigate to the container, fire
its set trap when it is wrapped (a raw write otherwise), and rebuild the
spine, modelling the in-place heap mutation. -/
def writeAt : Value → List Key → Key → Value → Option Value
| t, [], k, v => if isWrapped t then (handlerSet t k v).1 else rawSet t k v
| t, p :: ps, k, v =>
    match getKey t p with
    | none => none
    | some child =>
        match writeAt child ps k v with
        | none => none
        | some child2 => rawSet t p child2

/-- Construction-time errors of the entry point. -/
inductive FrmzError : Type where
| rootTypeError : FrmzError
| schemaValidationError : FrmzError
| dataCloneError : FrmzError
deriving Repr, DecidableEq

/-- Source frmz: reject non-proxiable roots, resolve the explicit or
inferred schema, validate, structuredClone the accepted value threading
the blob-identity counter, and deep-proxy the clone into the handle. -/
def frmz (initialData : Value) (schema : Option Schema) (c : Nat) :
    Except FrmzError (Value × Nat) :=
  if isProxiable initialData = false then .error .rootTypeError
  else
    let actualSchema := schema.getD (inferSchema initialData)
    match parse actualSchema initialData with
    | none => .error .schemaValidationError
    | some parsed =>
        match sClone parsed c with
        | none => .error .dataCloneError
        | some (cloned, c2) => .ok (createDeepProxy cloned, c2)

/-- Source getFormData: build a fresh FormData from the current data. -/
def render (data : Value) : List (String × FEntry) :=
  appendToFormData [] data ""

mutual

/-- The blob identities occurring in a value, in traversal order. -/
def blobIds : Value → List Nat
| .vBlob i => [i]
| .vSeq _ es => blobIdsList es
| .vRec _ fs => blobIdsFields fs
| _ => []

def blobIdsList : List Value → List Nat
| [] => []
| v :: vs => blobIds v ++ blobIdsList vs

def blobIdsFields : List (String × Value) → List Nat
| [] => []
| (_, v) :: fs => blobIds v ++ blobIdsFields fs

end

/-- The blob identities appended into a FormData, in entry order. -/
def fdBlobIds (fd : List (String × FEntry)) : List Nat :=
  fd.filterMap (fun e => match e.2 with | .blob i => some i | _ => none)

mutual

/-- Every wrapped-or-not flag of a reachable container is true: the
deep-wrapping invariant of the handle. -/
def allWrapped : Value → Bool
| .vSeq w es => w && allWrappedList es
| .vRec w fs => w && allWrappedFields fs
| _ => true

def allWrappedList : List Value → Bool
| [] => true
| v :: vs => allWrapped v && allWrappedList vs

def allWrappedFields : List (String × Value) → Bool
| [] => true
| (_, v) :: fs => allWrapped v && allWrappedFields fs

end

mutual

/-- A faithful model of a plain JS data value of the domain the spec's
round-trip property ranges over: primitives, blobs, records with distinct
keys and sequences, with no exotic (date, function, symbol) values. -/
def Wf : Value → Bool
| .vSeq _ es => WfList es
| .vRec _ fs => keysFresh fs && WfFields fs
| .vDate _ => false
| .vFunc _ => false
| .vSymbol _ => false
| _ => true

def WfList : List Value → Bool
| [] => true
| v :: vs => Wf v && WfList vs

def WfFields : List (String × Value) → Bool
| [] => true
| (_, v) :: fs => Wf v && WfFields fs

/-- No key occurs twice in the field list, as JS own keys never do. -/
def keysFresh : List (String × Value) → Bool
| [] => true
| (k, _) :: fs => !(fs.any (fun kv => kv.1 = k)) && keysFresh fs

end

def isContainer : Value → Bool
| .vSeq _ _ => true
| .vRec _ _ => true
| _ => false

mutual

/-- No Date occurs in the value; the spec's flatten grammar concerns trees
of Records, Sequences, primitives and binary leaves. -/
def dateFree : Value → Bool
| .vDate _ => false
| .vSeq _ es => dateFreeList es
| .vRec _ fs => dateFreeFields fs
| _ => true

def dateFreeList : List Value → Bool
| [] => true
| v :: vs => dateFree v && dateFreeList vs

def dateFreeFields : List (String × Value) → Bool
| [] => true
| (_, v) :: fs => dateFree v && dateFreeFields fs

end

mutual

/-- The transport flattening as the spec words it: a non-binary Record or
Sequence recurses with the computed key as the new path, a sequence
element at index i under path p gets key p[i] (bare i at the root), a
record field k gets key p[k] (bare k at the root), a BinaryPayload is
emitted raw, any other leaf is emitted in its textual form, and a root
level leaf with an empty computed key is not appended. -/
def specFlatten : Value → String → List (String × FEntry)
| .vSeq _ es, p => specFlatSeq es p 0
| .vRec _ fs, p => specFlatRec fs p
| v, p => if p = "" then [] else specEntry v p

/-- The entries contributed by one value at a computed non-root key. -/
def specEntry : Value → String → List (String × FEntry)
| .vSeq _ es, key => specFlatSeq es key 0
| .vRec _ fs, key => specFlatRec fs key
| .vBlob i, key => [(key, .blob i)]
| v, key => [(key, .str (jsString v))]

def specFlatSeq : List Value → String → Nat → List (String × FEntry)
| [], _, _ => []
| v :: rest, p, i =>
    specEntry v (if p = "" then toString i else p ++ "[" ++ toString i ++ "]") ++
      specFlatSeq rest p (i + 1)

def specFlatRec : List (String × Value) → String → List (String × FEntry)
| [], _ => []
| (k, v) :: rest, p =>
    specEntry v (if p = "" then k else p ++ "[" ++ k ++ "]") ++ specFlatRec rest p

end

/-- Shorthand for the accumulator property a single value satisfies. -/
def AtfSpec (v : Value) : Prop :=
  ∀ fd p, dateFree v = true → appendToFormData fd v p = fd ++ specFlatten v p

/-- The property that a schema's parse never invents blob references. -/
def ParseNoNewBlobs (s : Schema) : Prop :=
  ∀ v w, parse s v = some w → ∀ i ∈ blobIds w, i ∈ blobIds v

/-- The counter bound a structured clone guarantees for blob identities. -/
def CloneRange (v : Value) : Prop :=
  ∀ c w c2, sClone v c = some (w, c2) →
    c ≤ c2 ∧ ∀ i ∈ blobIds w, c ≤ i ∧ i < c2

/-- Flattening emits exactly the blob references of the value, except for
the one unreachable case of a bare blob at an empty root key. -/
def FdSpec (v : Value) : Prop :=
  ∀ fd p, (isBlobLike v = false ∨ p ≠ "") →
    fdBlobIds (appendToFormData fd v p) = fdBlobIds fd ++ blobIds v

theorem inferList_eq_map (es : List Value) :
    inferList es = es.map inferElement := by
  induction es with
  | nil => rfl
  | cons v vs ih => simp [inferList, inferElement, ih]

theorem inferFields_eq_map (fs : List (String × Value)) :
    inferFields fs = fs.map (fun kv => (kv.1, inferElement kv.2)) := by
  induction fs with
  | nil => rfl
  | cons kv fs ih =>
      obtain ⟨k, v⟩ := kv
      simp [inferFields, inferElement, ih]

/-- Member-wise induction over the nested Value type. -/
theorem valueIndMem {P : Value → Prop}
    (hnull : P .vNull) (hundef : P .vUndef)
    (hbool : ∀ b, P (.vBool b)) (hnum : ∀ n, P (.vNum n)) (hstr : ∀ s, P (.vStr s))
    (hblob : ∀ i, P (.vBlob i))
    (hseq : ∀ w es, (∀ e ∈ es, P e) → P (.vSeq w es))
    (hrec : ∀ w fs, (∀ kv ∈ fs, P kv.2) → P (.vRec w fs))
    (hdate : ∀ t, P (.vDate t)) (hfunc : ∀ i, P (.vFunc i)) (hsym : ∀ i, P (.vSymbol i)) :
    ∀ v, P v
| .vNull => hnull
| .vUndef => hundef
| .vBool b => hbool b
| .vNum n => hnum n
| .vStr s => hstr s
| .vBlob i => hblob i
| .vSeq w es => hseq w es (fun e _he =>
    valueIndMem hnull hundef hbool hnum hstr hblob hseq hrec hdate hfunc hsym e)
| .vRec w fs => hrec w fs (fun kv _hkv =>
    valueIndMem hnull hundef hbool hnum hstr hblob hseq hrec hdate hfunc hsym kv.2)
| .vDate t => hdate t
| .vFunc i => hfunc i
| .vSymbol i => hsym i
termination_by v => sizeOf v
decreasing_by
· have h := List.sizeOf_lt_of_mem _he
  simp only [Value.vSeq.sizeOf_spec]
  omega
· have h := List.sizeOf_lt_of_mem _hkv
  have h2 : sizeOf kv.2 < sizeOf kv := by
    obtain ⟨a, b⟩ := kv
    simp only [Prod.mk.sizeOf_spec]
    omega
  simp only [Value.vRec.sizeOf_spec]
  omega

/-- C2 fails as stated: a bare Blob at the root is a JS object, so it
passes the isProxiable root gate; frmz returns a handle (holding the
structured clone of the blob) instead of raising RootTypeError. -/
theorem c2_blob_root_counterexample :
    frmz (.vBlob 0) none 1 = .ok (.vBlob 1, 2) ∧
    frmz (.vBlob 0) none 1 ≠ .error .rootTypeError := by
  have h : frmz (.vBlob 0) none 1 = .ok (.vBlob 1, 2) := by
    simp [frmz, inferSchema, isProxiable, typeofStr, isNullV, parse, sClone, createDeepProxy]
  exact ⟨h, by rw [h]; intro hc; exact Except.noConfusion hc⟩

/-- C2 amended: for every input value that is not a JS object (numbers,
strings, booleans, null, undefined, functions, symbols) the entry point
raises RootTypeError synchronously, before any schema work, and no handle
is produced; a bare BinaryPayload (and any other object, such as a Date)
instead passes the root gate. -/
theorem c2_root_gate_amended (v : Value) (s : Option Schema) (c : Nat)
    (h : isProxiable v = false) : frmz v s c = .error .rootTypeError := by
  simp [frmz, h]

theorem c2_root_gate_amended_witness :
    isProxiable (.vNum 3) = false ∧
    frmz (.vNum 3) none 0 = .error .rootTypeError :=
  ⟨rfl, c2_root_gate_amended (.vNum 3) none 0 rfl⟩

/-- C3 fails as stated: a Date is a JS object, so inferSchema walks it as a
Record with no own enumerable keys, producing the empty object schema
rather than the accept-anything schema; the Date then fails validation
under its own inferred schema. -/
theorem c3_date_counterexample :
    inferSchema (.vDate 0) = .object [] ∧
    inferSchema (.vDate 0) ≠ .unknown ∧
    parse (inferSchema (.vDate 0)) (.vDate 0) = none := by
  refine ⟨rfl, ?_, by simp [inferSchema, parse]⟩
  rw [show inferSchema (.vDate 0) = .object [] from rfl]
  intro hc
  exact Schema.noConfusion hc

/-- C3 amended: for functions and symbols (whose typeof is not object)
inference produces the accept-anything schema, both at the root and in
element or field position, and any value passes validation under the
accept-anything schema; a Date, however, is a JS object and is inferred as
an empty Record schema, under which it fails validation. -/
theorem c3_unknown_fallback_amended :
    (∀ i, inferSchema (.vFunc i) = .unknown ∧ inferElement (.vFunc i) = .unknown) ∧
    (∀ i, inferSchema (.vSymbol i) = .unknown ∧ inferElement (.vSymbol i) = .unknown) ∧
    (∀ v, parse .unknown v = some v) ∧
    (∀ t, inferSchema (.vDate t) = .object [] ∧
      parse (inferSchema (.vDate t)) (.vDate t) = none) := by
  refine ⟨fun i => ⟨rfl, rfl⟩, fun i => ⟨rfl, rfl⟩, fun v => by simp [parse],
    fun t => ⟨rfl, by simp [inferSchema, parse]⟩⟩

/-- C6: render builds the transport object from the current data on every
call; constructing with a record mapping n to 1 renders n to the string 1,
and after writing 2 through the handle a second render yields the string 2
and differs from the first. -/
theorem c6_live_render :
    (∀ d, render d = appendToFormData [] d "") ∧
    frmz (.vRec false [("n", .vNum 1)]) none 0 = .ok (.vRec true [("n", .vNum 1)], 0) ∧
    render (.vRec true [("n", .vNum 1)]) = [("n", .str "1")] ∧
    writeAt (.vRec true [("n", .vNum 1)]) [] (.field "n") (.vNum 2) =
      some (.vRec true [("n", .vNum 2)]) ∧
    render (.vRec true [("n", .vNum 2)]) = [("n", .str "2")] ∧
    [(("n" : String), FEntry.str "2")] ≠ [(("n" : String), FEntry.str "1")] := by
  refine ⟨fun d => rfl, ?_, rfl, rfl, rfl, by simp⟩
  simp [frmz, inferSchema, inferFields, inferClassify, isProxiable, typeofStr, isNullV,
    isBlobLike, parse, parseShape, lookupField, sClone, sCloneFields, createDeepProxy,
    cdpFields, wrapAssign]

/-- C7: the proxy set trap reports success unconditionally and re-runs no
validation; in particular writing a string into a field whose
construction-time inferred schema was number is accepted and the new value
is rendered. -/
theorem c7_writes_never_fail :
    (∀ t k v, (handlerSet t k v).2 = true) ∧
    frmz (.vRec false [("n", .vNum 1)]) none 0 = .ok (.vRec true [("n", .vNum 1)], 0) ∧
    inferSchema (.vRec false [("n", .vNum 1)]) = .object [("n", .num)] ∧
    parse .num (.vStr "x") = none ∧
    writeAt (.vRec true [("n", .vNum 1)]) [] (.field "n") (.vStr "x") =
      some (.vRec true [("n", .vStr "x")]) ∧
    render (.vRec true [("n", .vStr "x")]) = [("n", .str "x")] := by
  refine ⟨fun t k v => rfl, ?_, rfl, by simp [parse], rfl, rfl⟩
  simp [frmz, inferSchema, inferFields, inferClassify, isProxiable, typeofStr, isNullV,
    isBlobLike, parse, parseShape, lookupField, sClone, sCloneFields, createDeepProxy,
    cdpFields, wrapAssign]

/-- C8: on a Sequence, inference produces an array schema whose element
schema is the union of the per-element inferred schemas in element order,
without deduplication, and the accept-anything schema when the sequence is
empty. -/
theorem c8_sequence_union_inference (w : Bool) (es : List Value) :
    inferSchema (.vSeq w es) =
      .array (if es.length > 0 then .union (es.map inferElement) else .unknown) ∧
    inferList es = es.map inferElement := by
  refine ⟨?_, inferList_eq_map es⟩
  simp [inferSchema, inferList_eq_map]

theorem atfSeq_eq_spec (p : String) (es : List Value)
    (hm : ∀ e ∈ es, AtfSpec e) (hdl : dateFreeList es = true) :
    ∀ fd i, atfSeq fd es p i = fd ++ specFlatSeq es p i := by
  induction es with
  | nil => intro fd i; simp [atfSeq, specFlatSeq]
  | cons v rest ih =>
      intro fd i
      obtain ⟨hdv, hdr⟩ : dateFree v = true ∧ dateFreeList rest = true := by
        simpa [dateFreeList, Bool.and_eq_true] using hdl
      have ihrest := ih (fun e he => hm e (by simp [he])) hdr
      have hv := hm v (by simp)
      cases v with
      | vSeq w2 es2 =>
          simp only [atfSeq, isProxiable, typeofStr, isNullV, isBlobLike]
          rw [ihrest]
          rw [show appendToFormData fd (.vSeq w2 es2)
                (if p = "" then toString i else p ++ "[" ++ toString i ++ "]") =
              fd ++ specFlatten (.vSeq w2 es2)
                (if p = "" then toString i else p ++ "[" ++ toString i ++ "]") from
            hv fd _ hdv]
          simp [specFlatSeq, specFlatten, specEntry]
      | vRec w2 fs2 =>
          simp only [atfSeq, isProxiable, typeofStr, isNullV, isBlobLike]
          rw [ihrest]
          rw [show appendToFormData fd (.vRec w2 fs2)
                (if p = "" then toString i else p ++ "[" ++ toString i ++ "]") =
              fd ++ specFlatten (.vRec w2 fs2)
                (if p = "" then toString i else p ++ "[" ++ toString i ++ "]") from
            hv fd _ hdv]
          simp [specFlatSeq, specFlatten, specEntry]
      | vDate t => exact absurd hdv (by simp [dateFree])
      | vBlob b =>
          simp only [atfSeq, isProxiable, typeofStr, isNullV, isBlobLike]
          rw [ihrest]
          simp [specFlatSeq, specEntry]
      | vNull =>
          simp only [atfSeq, isProxiable, typeofStr, isNullV, isBlobLike]
          rw [ihrest]
          simp [specFlatSeq, specEntry]
      | vUndef =>
          simp only [atfSeq, isProxiable, typeofStr, isNullV, isBlobLike]
          rw [ihrest]
          simp [specFlatSeq, specEntry]
      | vBool b =>
          simp only [atfSeq, isProxiable, typeofStr, isNullV, isBlobLike]
          rw [ihrest]
          simp [specFlatSeq, specEntry]
      | vNum n =>
          simp only [atfSeq, isProxiable, typeofStr, isNullV, isBlobLike]
          rw [ihrest]
          simp [specFlatSeq, specEntry]
      | vStr s =>
          simp only [atfSeq, isProxiable, typeofStr, isNullV, isBlobLike]
          rw [ihrest]
          simp [specFlatSeq, specEntry]
      | vFunc f =>
          simp only [atfSeq, isProxiable, typeofStr, isNullV, isBlobLike]
          rw [ihrest]
          simp [specFlatSeq, specEntry]
      | vSymbol s =>
          simp only [atfSeq, isProxiable, typeofStr, isNullV, isBlobLike]
          rw [ihrest]
          simp [specFlatSeq, specEntry]

theorem atfRec_eq_spec (p : String) (fs : List (String × Value))
    (hm : ∀ kv ∈ fs, AtfSpec kv.2) (hdl : dateFreeFields fs = true) :
    ∀ fd, atfRec fd fs p = fd ++ specFlatRec fs p := by
  induction fs with
  | nil => intro fd; simp [atfRec, specFlatRec]
  | cons kv rest ih =>
      obtain ⟨k, v⟩ := kv
      intro fd
      obtain ⟨hdv, hdr⟩ : dateFree v = true ∧ dateFreeFields rest = true := by
        simpa [dateFreeFields, Bool.and_eq_true] using hdl
      have ihrest := ih (fun e he => hm e (by simp [he])) hdr
      have hv : AtfSpec v := hm (k, v) (by simp)
      cases v with
      | vSeq w2 es2 =>
          simp only [atfRec, isProxiable, typeofStr, isNullV, isBlobLike]
          rw [ihrest]
          rw [show appendToFormData fd (.vSeq w2 es2)
                (if p = "" then k else p ++ "[" ++ k ++ "]") =
              fd ++ specFlatten (.vSeq w2 es2)
                (if p = "" then k else p ++ "[" ++ k ++ "]") from hv fd _ hdv]
          simp [specFlatRec, specFlatten, specEntry]
      | vRec w2 fs2 =>
          simp only [atfRec, isProxiable, typeofStr, isNullV, isBlobLike]
          rw [ihrest]
          rw [show appendToFormData fd (.vRec w2 fs2)
                (if p = "" then k else p ++ "[" ++ k ++ "]") =
              fd ++ specFlatten (.vRec w2 fs2)
                (if p = "" then k else p ++ "[" ++ k ++ "]") from hv fd _ hdv]
          simp [specFlatRec, specFlatten, specEntry]
      | vDate t => exact absurd hdv (by simp [dateFree])
      | vBlob b =>
          simp only [atfRec, isProxiable, typeofStr, isNullV, isBlobLike]
          rw [ihrest]
          simp [specFlatRec, specEntry]
      | vNull =>
          simp only [atfRec, isProxiable, typeofStr, isNullV, isBlobLike]
          rw [ihrest]
          simp [specFlatRec, specEntry]
      | vUndef =>
          simp only [atfRec, isProxiable, typeofStr, isNullV, isBlobLike]
          rw [ihrest]
          simp [specFlatRec, specEntry]
      | vBool b =>
          simp only [atfRec, isProxiable, typeofStr, isNullV, isBlobLike]
          rw [ihrest]
          simp [specFlatRec, specEntry]
      | vNum n =>
          simp only [atfRec, isProxiable, typeofStr, isNullV, isBlobLike]
          rw [ihrest]
          simp [specFlatRec, specEntry]
      | vStr s =>
          simp only [atfRec, isProxiable, typeofStr, isNullV, isBlobLike]
          rw [ihrest]
          simp [specFlatRec, specEntry]
      | vFunc f =>
          simp only [atfRec, isProxiable, typeofStr, isNullV, isBlobLike]
          rw [ihrest]
          simp [specFlatRec, specEntry]
      | vSymbol s =>
          simp only [atfRec, isProxiable, typeofStr, isNullV, isBlobLike]
          rw [ihrest]
          simp [specFlatRec, specEntry]

theorem atf_eq_specFlatten (v : Value) : AtfSpec v := by
  induction v using valueIndMem with
  | hnull => intro fd p _; simp only [appendToFormData, specFlatten, specEntry]; split <;> simp
  | hundef => intro fd p _; simp only [appendToFormData, specFlatten, specEntry]; split <;> simp
  | hbool b => intro fd p _; simp only [appendToFormData, specFlatten, specEntry]; split <;> simp
  | hnum n => intro fd p _; simp only [appendToFormData, specFlatten, specEntry]; split <;> simp
  | hstr s => intro fd p _; simp only [appendToFormData, specFlatten, specEntry]; split <;> simp
  | hblob i => intro fd p _; simp only [appendToFormData, specFlatten, specEntry]; split <;> simp
  | hdate t => intro fd p h; exact absurd h (by simp [dateFree])
  | hfunc i => intro fd p _; simp only [appendToFormData, specFlatten, specEntry]; split <;> simp
  | hsym i => intro fd p _; simp only [appendToFormData, specFlatten, specEntry]; split <;> simp
  | hseq w es ihm =>
      intro fd p hdf
      have hdl : dateFreeList es = true := by simpa [dateFree] using hdf
      simp only [appendToFormData, specFlatten]
      exact atfSeq_eq_spec p es ihm hdl fd 0
  | hrec w fs ihm =>
      intro fd p hdf
      have hdl : dateFreeFields fs = true := by simpa [dateFree] using hdf
      simp only [appendToFormData, specFlatten]
      exact atfRec_eq_spec p fs ihm hdl fd

/-- C4: the flattening the code performs coincides with the spec's
bracket-notation grammar on every tree free of exotic date objects (the
spec-side specFlatten composes keys as parent[child] and parent[i], bare
at the root, record fields in iteration order and sequence elements in
index order); and the spec's concrete example renders to exactly the
stated entries in order. -/
theorem c4_bracket_grammar :
    (∀ v fd p, dateFree v = true → appendToFormData fd v p = fd ++ specFlatten v p) ∧
    render (.vRec true [("user", .vRec true [("name", .vStr "Bob")]),
                        ("tags", .vSeq true [.vStr "a", .vStr "b"])]) =
      [("user[name]", .str "Bob"), ("tags[0]", .str "a"), ("tags[1]", .str "b")] :=
  ⟨fun v fd p h => atf_eq_specFlatten v fd p h, rfl⟩

theorem c4_bracket_grammar_witness :
    dateFree (.vRec true [("user", .vRec true [("name", .vStr "Bob")]),
                          ("tags", .vSeq true [.vStr "a", .vStr "b"])]) = true ∧
    appendToFormData [] (.vRec true [("user", .vRec true [("name", .vStr "Bob")]),
                                     ("tags", .vSeq true [.vStr "a", .vStr "b"])]) "" =
      [] ++ specFlatten (.vRec true [("user", .vRec true [("name", .vStr "Bob")]),
                                     ("tags", .vSeq true [.vStr "a", .vStr "b"])]) "" :=
  ⟨rfl, c4_bracket_grammar.1 _ [] "" rfl⟩

theorem allWrapped_nonwrap (v : Value) (h : (isProxiable v && !isBlobLike v) = false) :
    allWrapped v = true := by
  cases v <;> simp_all [isProxiable, typeofStr, isNullV, isBlobLike, allWrapped]

theorem allWrappedList_mem {es : List Value} (h : allWrappedList es = true) :
    ∀ e ∈ es, allWrapped e = true := by
  induction es with
  | nil => intro e he; cases he
  | cons v vs ih =>
      obtain ⟨h1, h2⟩ : allWrapped v = true ∧ allWrappedList vs = true := by
        simpa [allWrappedList, Bool.and_eq_true] using h
      intro e he
      rcases List.mem_cons.mp he with he | he
      · rw [he]; exact h1
      · exact ih h2 e he

theorem allWrappedFields_mem {fs : List (String × Value)} (h : allWrappedFields fs = true) :
    ∀ kv ∈ fs, allWrapped kv.2 = true := by
  induction fs with
  | nil => intro kv hkv; cases hkv
  | cons kv2 rest ih =>
      obtain ⟨k, v⟩ := kv2
      obtain ⟨h1, h2⟩ : allWrapped v = true ∧ allWrappedFields rest = true := by
        simpa [allWrappedFields, Bool.and_eq_true] using h
      intro kv hkv
      rcases List.mem_cons.mp hkv with hkv | hkv
      · rw [hkv]; exact h1
      · exact ih h2 kv hkv

theorem cdpList_allWrapped (es : List Value)
    (hm : ∀ e ∈ es, allWrapped (createDeepProxy e) = true) :
    allWrappedList (cdpList es) = true := by
  induction es with
  | nil => rfl
  | cons v vs ih =>
      have hhead : allWrapped (if isProxiable v && !isBlobLike v
          then createDeepProxy v else v) = true := by
        cases hc : (isProxiable v && !isBlobLike v) with
        | true => simpa [hc] using hm v (by simp)
        | false => simpa [hc] using allWrapped_nonwrap v hc
      have htail : allWrappedList (cdpList vs) = true :=
        ih (fun e he => hm e (by simp [he]))
      simp only [cdpList, allWrappedList, Bool.and_eq_true]
      exact ⟨by simpa using hhead, htail⟩

theorem cdpFields_allWrapped (fs : List (String × Value))
    (hm : ∀ kv ∈ fs, allWrapped (createDeepProxy kv.2) = true) :
    allWrappedFields (cdpFields fs) = true := by
  induction fs with
  | nil => rfl
  | cons kv rest ih =>
      obtain ⟨k, v⟩ := kv
      have hhead : allWrapped (if isProxiable v && !isBlobLike v
          then createDeepProxy v else v) = true := by
        cases hc : (isProxiable v && !isBlobLike v) with
        | true => simpa [hc] using hm (k, v) (by simp)
        | false => simpa [hc] using allWrapped_nonwrap v hc
      have htail : allWrappedFields (cdpFields rest) = true :=
        ih (fun e he => hm e (by simp [he]))
      simp only [cdpFields, allWrappedFields, Bool.and_eq_true]
      exact ⟨by simpa using hhead, htail⟩

theorem allWrapped_createDeepProxy (v : Value) : allWrapped (createDeepProxy v) = true := by
  induction v using valueIndMem with
  | hnull => rfl
  | hundef => rfl
  | hbool b => rfl
  | hnum n => rfl
  | hstr s => rfl
  | hblob i => rfl
  | hdate t => rfl
  | hfunc i => rfl
  | hsym i => rfl
  | hseq w es ihm =>
      simp only [createDeepProxy, allWrapped, Bool.true_and]
      exact cdpList_allWrapped es ihm
  | hrec w fs ihm =>
      simp only [createDeepProxy, allWrapped, Bool.true_and]
      exact cdpFields_allWrapped fs ihm

theorem allWrapped_wrapAssign (v : Value) : allWrapped (wrapAssign v) = true := by
  unfold wrapAssign
  cases hc : (isProxiable v && !isBlobLike v) with
  | true => simpa [hc] using allWrapped_createDeepProxy v
  | false => simpa [hc] using allWrapped_nonwrap v hc

theorem lookupField_allWrapped {fs : List (String × Value)} {k : String} {c : Value}
    (hw : allWrappedFields fs = true) (h : lookupField fs k = some c) :
    allWrapped c = true := by
  induction fs with
  | nil => cases h
  | cons kv rest ih =>
      obtain ⟨k2, v2⟩ := kv
      obtain ⟨h1, h2⟩ : allWrapped v2 = true ∧ allWrappedFields rest = true := by
        simpa [allWrappedFields, Bool.and_eq_true] using hw
      by_cases he : k2 = k
      · rw [show lookupField ((k2, v2) :: rest) k = some v2 by simp [lookupField, he]] at h
        cases h; exact h1
      · rw [show lookupField ((k2, v2) :: rest) k = lookupField rest k by
          simp [lookupField, he]] at h
        exact ih h2 h

theorem allWrapped_getKey {t c : Value} {k : Key}
    (hw : allWrapped t = true) (h : getKey t k = some c) : allWrapped c = true := by
  cases t with
  | vRec w fs =>
      cases k with
      | field s =>
          obtain ⟨_, h2⟩ : w = true ∧ allWrappedFields fs = true := by
            simpa [allWrapped, Bool.and_eq_true] using hw
          exact lookupField_allWrapped h2 h
      | idx i => cases h
  | vSeq w es =>
      cases k with
      | field s => cases h
      | idx i =>
          obtain ⟨_, h2⟩ : w = true ∧ allWrappedList es = true := by
            simpa [allWrapped, Bool.and_eq_true] using hw
          have hmem : c ∈ es := by
            obtain ⟨hlt, hg⟩ := List.getElem?_eq_some.mp h
            exact hg ▸ List.getElem_mem hlt
          exact allWrappedList_mem h2 c hmem
  | vNull => cases h
  | vUndef => cases h
  | vBool b => cases h
  | vNum n => cases h
  | vStr s => cases h
  | vBlob i => cases h
  | vDate t2 => cases h
  | vFunc i => cases h
  | vSymbol i => cases h

theorem allWrappedFields_setField {fs : List (String × Value)} {k : String} {nv : Value}
    (hw : allWrappedFields fs = true) (hnv : allWrapped nv = true) :
    allWrappedFields (setField fs k nv) = true := by
  induction fs with
  | nil => simp [setField, allWrappedFields, hnv]
  | cons kv rest ih =>
      obtain ⟨k2, v2⟩ := kv
      obtain ⟨h1, h2⟩ : allWrapped v2 = true ∧ allWrappedFields rest = true := by
        simpa [allWrappedFields, Bool.and_eq_true] using hw
      by_cases he : k2 = k
      · simp [setField, he, allWrappedFields, hnv, h2]
      · simp [setField, he, allWrappedFields, h1, ih h2]

theorem allWrappedList_set {es : List Value} {i : Nat} {nv : Value}
    (hw : allWrappedList es = true) (hnv : allWrapped nv = true) :
    allWrappedList (es.set i nv) = true := by
  induction es generalizing i with
  | nil => simpa [List.set] using hw
  | cons v vs ih =>
      obtain ⟨h1, h2⟩ : allWrapped v = true ∧ allWrappedList vs = true := by
        simpa [allWrappedList, Bool.and_eq_true] using hw
      cases i with
      | zero => simp [List.set, allWrappedList, hnv, h2]
      | succ j => simp [List.set, allWrappedList, h1, ih h2]

theorem allWrapped_rawSet {t nv t2 : Value} {k : Key}
    (hw : allWrapped t = true) (hnv : allWrapped nv = true)
    (h : rawSet t k nv = some t2) : allWrapped t2 = true := by
  cases t with
  | vRec w fs =>
      cases k with
      | field s =>
          obtain ⟨h1, h2⟩ : w = true ∧ allWrappedFields fs = true := by
            simpa [allWrapped, Bool.and_eq_true] using hw
          rw [show rawSet (.vRec w fs) (.field s) nv = some (.vRec w (setField fs s nv))
            from rfl] at h
          cases h
          simp [allWrapped, h1, allWrappedFields_setField h2 hnv]
      | idx i => cases h
  | vSeq w es =>
      cases k with
      | field s => cases h
      | idx i =>
          obtain ⟨h1, h2⟩ : w = true ∧ allWrappedList es = true := by
            simpa [allWrapped, Bool.and_eq_true] using hw
          by_cases hlt : i < es.length
          · rw [show rawSet (.vSeq w es) (.idx i) nv = some (.vSeq w (es.set i nv)) by
              simp [rawSet, hlt]] at h
            cases h
            simp [allWrapped, h1, allWrappedList_set h2 hnv]
          · rw [show rawSet (.vSeq w es) (.idx i) nv = none by simp [rawSet, hlt]] at h
            cases h
  | vNull => cases h
  | vUndef => cases h
  | vBool b => cases h
  | vNum n => cases h
  | vStr s => cases h
  | vBlob i => cases h
  | vDate t3 => cases h
  | vFunc i => cases h
  | vSymbol i => cases h

theorem isWrapped_of_rawSet {t nv t2 : Value} {k : Key}
    (hw : allWrapped t = true) (h : rawSet t k nv = some t2) : isWrapped t = true := by
  cases t with
  | vRec w fs =>
      obtain ⟨h1, _⟩ : w = true ∧ allWrappedFields fs = true := by
        simpa [allWrapped, Bool.and_eq_true] using hw
      simpa [isWrapped] using h1
  | vSeq w es =>
      obtain ⟨h1, _⟩ : w = true ∧ allWrappedList es = true := by
        simpa [allWrapped, Bool.and_eq_true] using hw
      simpa [isWrapped] using h1
  | vNull => cases h
  | vUndef => cases h
  | vBool b => cases h
  | vNum n => cases h
  | vStr s => cases h
  | vBlob i => cases h
  | vDate t3 => cases h
  | vFunc i => cases h
  | vSymbol i => cases h

theorem allWrapped_writeAt {root root2 : Value} {path : List Key} {k : Key} {v : Value}
    (hw : allWrapped root = true) (h : writeAt root path k v = some root2) :
    allWrapped root2 = true := by
  induction path generalizing root root2 with
  | nil =>
      cases hwr : isWrapped root with
      | true =>
          rw [show writeAt root [] k v = (handlerSet root k v).1 by simp [writeAt, hwr]] at h
          exact allWrapped_rawSet hw (allWrapped_wrapAssign v) h
      | false =>
          rw [show writeAt root [] k v = rawSet root k v by simp [writeAt, hwr]] at h
          have hcontra := isWrapped_of_rawSet hw h
          rw [hwr] at hcontra
          cases hcontra
  | cons p ps ih =>
      cases hg : getKey root p with
      | none =>
          rw [show writeAt root (p :: ps) k v = none by simp [writeAt, hg]] at h
          cases h
      | some child =>
          cases hwc : writeAt child ps k v with
          | none =>
              rw [show writeAt root (p :: ps) k v = none by simp [writeAt, hg, hwc]] at h
              cases h
          | some child2 =>
              rw [show writeAt root (p :: ps) k v = rawSet root p child2 by
                simp [writeAt, hg, hwc]] at h
              exact allWrapped_rawSet hw (ih (allWrapped_getKey hw hg) hwc) h

theorem lookupField_setField (fs : List (String × Value)) (k : String) (v : Value) :
    lookupField (setField fs k v) k = some v := by
  induction fs with
  | nil => simp [setField, lookupField]
  | cons kv rest ih =>
      obtain ⟨k2, v2⟩ := kv
      by_cases he : k2 = k
      · simp [setField, he, lookupField]
      · simp [setField, he, lookupField, ih]

theorem getKey_rawSet {t nv t2 : Value} {k : Key}
    (h : rawSet t k nv = some t2) : getKey t2 k = some nv := by
  cases t with
  | vRec w fs =>
      cases k with
      | field s =>
          cases h
          simp [getKey, lookupField_setField]
      | idx i => cases h
  | vSeq w es =>
      cases k with
      | field s => cases h
      | idx i =>
          by_cases hlt : i < es.length
          · rw [show rawSet (.vSeq w es) (.idx i) nv = some (.vSeq w (es.set i nv)) by
              simp [rawSet, hlt]] at h
            cases h
            simpa [getKey] using List.getElem?_set_eq_of_lt nv hlt
          · rw [show rawSet (.vSeq w es) (.idx i) nv = none by simp [rawSet, hlt]] at h
            cases h
  | vNull => cases h
  | vUndef => cases h
  | vBool b => cases h
  | vNum n => cases h
  | vStr s => cases h
  | vBlob i => cases h
  | vDate t3 => cases h
  | vFunc i => cases h
  | vSymbol i => cases h

/-- C5: the deep-wrapping invariant.  Construction wraps every reachable
container of the initial tree; a write through the handle at any path
preserves the invariant because the set trap deep-wraps incoming container
values; a BinaryPayload or primitive assignment is stored by the trap
without any transformation, and a stored value reads back identically. -/
theorem c5_wrap_invariant :
    (∀ v, allWrapped (createDeepProxy v) = true) ∧
    (∀ root path k v root2, allWrapped root = true →
      writeAt root path k v = some root2 → allWrapped root2 = true) ∧
    (∀ v, (isProxiable v && !isBlobLike v) = false → wrapAssign v = v) ∧
    (∀ t k v t2, rawSet t k v = some t2 → getKey t2 k = some v) := by
  refine ⟨allWrapped_createDeepProxy, ?_, ?_, ?_⟩
  · intro root path k v root2 hw h
    exact allWrapped_writeAt hw h
  · intro v hv
    simp [wrapAssign, hv]
  · intro t k v t2 h
    exact getKey_rawSet h

theorem c5_wrap_invariant_witness :
    allWrapped (createDeepProxy (.vRec false [("a", .vRec false [])])) = true ∧
    allWrapped (.vRec true [("a", .vRec true [])]) = true ∧
    writeAt (.vRec true [("a", .vRec true [])]) [] (.field "b") (.vSeq false [.vNum 1]) =
      some (.vRec true [("a", .vRec true []), ("b", .vSeq true [.vNum 1])]) ∧
    allWrapped (.vRec true [("a", .vRec true []), ("b", .vSeq true [.vNum 1])]) = true ∧
    (isProxiable (.vBlob 5) && !isBlobLike (.vBlob 5)) = false ∧
    wrapAssign (.vBlob 5) = .vBlob 5 ∧
    rawSet (.vRec true []) (.field "f") (.vBlob 5) = some (.vRec true [("f", .vBlob 5)]) ∧
    getKey (.vRec true [("f", .vBlob 5)]) (.field "f") = some (.vBlob 5) := by
  refine ⟨c5_wrap_invariant.1 _, rfl, rfl,
    c5_wrap_invariant.2.1 (.vRec true [("a", .vRec true [])]) [] (.field "b")
      (.vSeq false [.vNum 1]) _ rfl rfl,
    rfl, c5_wrap_invariant.2.2.1 (.vBlob 5) rfl, rfl,
    c5_wrap_invariant.2.2.2 (.vRec true []) (.field "f") (.vBlob 5) _ rfl⟩

/-- Member-wise induction over the nested Schema type. -/
theorem schemaIndMem {P : Schema → Prop}
    (hu : P .unknown) (hs : P .str) (hn : P .num) (hb : P .bool)
    (hnl : P .null) (hud : P .undef) (hbl : P .blob)
    (har : ∀ s, P s → P (.array s))
    (hun : ∀ ss, (∀ s ∈ ss, P s) → P (.union ss))
    (hob : ∀ shape, (∀ ks ∈ shape, P ks.2) → P (.object shape)) :
    ∀ s, P s
| .unknown => hu
| .str => hs
| .num => hn
| .bool => hb
| .null => hnl
| .undef => hud
| .blob => hbl
| .array s => har s (schemaIndMem hu hs hn hb hnl hud hbl har hun hob s)
| .union ss => hun ss (fun s _hs =>
    schemaIndMem hu hs hn hb hnl hud hbl har hun hob s)
| .object shape => hob shape (fun ks _hk =>
    schemaIndMem hu hs hn hb hnl hud hbl har hun hob ks.2)
termination_by s => sizeOf s
decreasing_by
· simp only [Schema.array.sizeOf_spec]; omega
· have h := List.sizeOf_lt_of_mem _hs
  simp only [Schema.union.sizeOf_spec]
  omega
· have h := List.sizeOf_lt_of_mem _hk
  have h2 : sizeOf ks.2 < sizeOf ks := by
    obtain ⟨a, b⟩ := ks
    simp only [Prod.mk.sizeOf_spec]
    omega
  simp only [Schema.object.sizeOf_spec]
  omega

theorem parseList_blobIds {s : Schema} (ihs : ParseNoNewBlobs s) :
    ∀ es ws, parseList s es = some ws →
      ∀ i ∈ blobIdsList ws, i ∈ blobIdsList es := by
  intro es
  induction es with
  | nil =>
      intro ws h i hi
      simp [parseList] at h
      subst h
      simp [blobIdsList] at hi
  | cons v vs ih =>
      intro ws h i hi
      rw [show parseList s (v :: vs) =
          (match parse s v with
           | none => none
           | some w =>
               match parseList s vs with
               | none => none
               | some ws => some (w :: ws)) by rw [parseList]] at h
      cases hp : parse s v with
      | none => rw [hp] at h; cases h
      | some u =>
          rw [hp] at h
          cases hpl : parseList s vs with
          | none => rw [hpl] at h; cases h
          | some us =>
              rw [hpl] at h
              cases h
              simp only [blobIdsList, List.mem_append] at hi ⊢
              rcases hi with hi | hi
              · exact Or.inl (ihs v u hp i hi)
              · exact Or.inr (ih us hpl i hi)

theorem parseFirst_blobIds :
    ∀ (ss : List Schema), (∀ s ∈ ss, ParseNoNewBlobs s) →
    ∀ v w, parseFirst ss v = some w → ∀ i ∈ blobIds w, i ∈ blobIds v := by
  intro ss
  induction ss with
  | nil => intro _ v w h; simp [parseFirst] at h
  | cons s rest ih =>
      intro hm v w h i hi
      rw [show parseFirst (s :: rest) v =
          (match parse s v with
           | some w => some w
           | none => parseFirst rest v) by rw [parseFirst]] at h
      cases hp : parse s v with
      | some u =>
          rw [hp] at h
          cases h
          exact hm s (by simp) v w hp i hi
      | none =>
          rw [hp] at h
          exact ih (fun s2 h2 => hm s2 (by simp [h2])) v w h i hi

theorem lookupField_blobIds :
    ∀ (fs : List (String × Value)) k u, lookupField fs k = some u →
      ∀ i ∈ blobIds u, i ∈ blobIdsFields fs := by
  intro fs
  induction fs with
  | nil => intro k u h; cases h
  | cons kv rest ih =>
      obtain ⟨k2, v2⟩ := kv
      intro k u h i hi
      by_cases he : k2 = k
      · rw [show lookupField ((k2, v2) :: rest) k = some v2 by
          simp [lookupField, he]] at h
        cases h
        simp only [blobIdsFields, List.mem_append]
        exact Or.inl hi
      · rw [show lookupField ((k2, v2) :: rest) k = lookupField rest k by
          simp [lookupField, he]] at h
        simp only [blobIdsFields, List.mem_append]
        exact Or.inr (ih k u h i hi)

theorem parseShape_blobIds (shape : List (String × Schema))
    (hm : ∀ ks ∈ shape, ParseNoNewBlobs ks.2) :
    ∀ fs ws, parseShape shape fs = some ws →
      ∀ i ∈ blobIdsFields ws, i ∈ blobIdsFields fs := by
  induction shape with
  | nil =>
      intro fs ws h i hi
      simp [parseShape] at h
      subst h
      simp [blobIdsFields] at hi
  | cons ks rest ih =>
      obtain ⟨k, s⟩ := ks
      intro fs ws h i hi
      rw [show parseShape ((k, s) :: rest) fs =
          (match parse s ((lookupField fs k).getD .vUndef) with
           | none => none
           | some w =>
               match parseShape rest fs with
               | none => none
               | some ws => some ((k, w) :: ws)) by rw [parseShape]] at h
      cases hp : parse s ((lookupField fs k).getD .vUndef) with
      | none => rw [hp] at h; cases h
      | some u =>
          rw [hp] at h
          cases hps : parseShape rest fs with
          | none => rw [hps] at h; cases h
          | some us =>
              rw [hps] at h
              cases h
              simp only [blobIdsFields, List.mem_append] at hi ⊢
              rcases hi with hi | hi
              · have hu := hm (k, s) (by simp) _ u hp i hi
                cases hl : lookupField fs k with
                | none => rw [hl] at hu; simp [blobIds] at hu
                | some lv =>
                    rw [hl] at hu
                    exact lookupField_blobIds fs k lv hl i (by simpa using hu)
              · exact ih (fun ks2 h2 => hm ks2 (by simp [h2])) fs us hps i hi

theorem parse_blobIds : ∀ s, ParseNoNewBlobs s := by
  intro s
  induction s using schemaIndMem with
  | hu =>
      intro v w h i hi
      simp [parse] at h
      subst h
      exact hi
  | hs =>
      intro v w h i hi
      cases v <;> (simp [parse] at h; try (subst h; simpa using hi))
  | hn =>
      intro v w h i hi
      cases v <;> (simp [parse] at h; try (subst h; simpa using hi))
  | hb =>
      intro v w h i hi
      cases v <;> (simp [parse] at h; try (subst h; simpa using hi))
  | hnl =>
      intro v w h i hi
      cases v <;> (simp [parse] at h; try (subst h; simpa using hi))
  | hud =>
      intro v w h i hi
      cases v <;> (simp [parse] at h; try (subst h; simpa using hi))
  | hbl =>
      intro v w h i hi
      cases v <;> (simp [parse] at h; try (subst h; simpa using hi))
  | har s ihs =>
      intro v w h i hi
      cases v with
      | vSeq w2 es =>
          rw [show parse (.array s) (.vSeq w2 es) =
              (parseList s es).map (fun ws => .vSeq false ws) by simp [parse]] at h
          cases hpl : parseList s es with
          | none => rw [hpl] at h; cases h
          | some ws =>
              rw [hpl] at h
              cases h
              simp only [blobIds] at hi ⊢
              exact parseList_blobIds ihs es ws hpl i hi
      | vNull => simp [parse] at h
      | vUndef => simp [parse] at h
      | vBool b => simp [parse] at h
      | vNum n => simp [parse] at h
      | vStr s2 => simp [parse] at h
      | vBlob b => simp [parse] at h
      | vRec w2 fs => simp [parse] at h
      | vDate t => simp [parse] at h
      | vFunc f => simp [parse] at h
      | vSymbol s2 => simp [parse] at h
  | hun ss ihm =>
      intro v w h i hi
      rw [show parse (.union ss) v = parseFirst ss v by simp [parse]] at h
      exact parseFirst_blobIds ss ihm v w h i hi
  | hob shape ihm =>
      intro v w h i hi
      cases v with
      | vRec w2 fs =>
          rw [show parse (.object shape) (.vRec w2 fs) =
              (parseShape shape fs).map (fun ws => .vRec false ws) by simp [parse]] at h
          cases hps : parseShape shape fs with
          | none => rw [hps] at h; cases h
          | some ws =>
              rw [hps] at h
              cases h
              simp only [blobIds] at hi ⊢
              exact parseShape_blobIds shape ihm fs ws hps i hi
      | vNull => simp [parse] at h
      | vUndef => simp [parse] at h
      | vBool b => simp [parse] at h
      | vNum n => simp [parse] at h
      | vStr s2 => simp [parse] at h
      | vBlob b => simp [parse] at h
      | vSeq w2 es => simp [parse] at h
      | vDate t => simp [parse] at h
      | vFunc f => simp [parse] at h
      | vSymbol s2 => simp [parse] at h

theorem sCloneList_range (es : List Value) (hm : ∀ e ∈ es, CloneRange e) :
    ∀ c ws c2, sCloneList es c = some (ws, c2) →
      c ≤ c2 ∧ ∀ i ∈ blobIdsList ws, c ≤ i ∧ i < c2 := by
  induction es with
  | nil =>
      intro c ws c2 h
      simp only [sCloneList, Option.some.injEq, Prod.mk.injEq] at h
      obtain ⟨h1, h2⟩ := h
      subst h1
      subst h2
      exact ⟨Nat.le_refl c, by simp [blobIdsList]⟩
  | cons v vs ih =>
      intro c ws c2 h
      rw [show sCloneList (v :: vs) c =
          (match sClone v c with
           | none => none
           | some (w, c3) =>
               match sCloneList vs c3 with
               | none => none
               | some (ws, c4) => some (w :: ws, c4)) from rfl] at h
      split at h
      · cases h
      · rename_i u cm hv
        split at h
        · cases h
        · rename_i us c4 hvs
          simp only [Option.some.injEq, Prod.mk.injEq] at h
          obtain ⟨h1, h2⟩ := h
          subst h1
          subst h2
          obtain ⟨hle1, hb1⟩ := hm v (by simp) c u cm hv
          obtain ⟨hle2, hb2⟩ := ih (fun e he => hm e (by simp [he])) cm us c4 hvs
          refine ⟨Nat.le_trans hle1 hle2, ?_⟩
          intro i hi
          simp only [blobIdsList, List.mem_append] at hi
          rcases hi with hi | hi
          · obtain ⟨ha, hb⟩ := hb1 i hi
            exact ⟨ha, Nat.lt_of_lt_of_le hb hle2⟩
          · obtain ⟨ha, hb⟩ := hb2 i hi
            exact ⟨Nat.le_trans hle1 ha, hb⟩

theorem sCloneFields_range (fs : List (String × Value))
    (hm : ∀ kv ∈ fs, CloneRange kv.2) :
    ∀ c ws c2, sCloneFields fs c = some (ws, c2) →
      c ≤ c2 ∧ ∀ i ∈ blobIdsFields ws, c ≤ i ∧ i < c2 := by
  induction fs with
  | nil =>
      intro c ws c2 h
      simp only [sCloneFields, Option.some.injEq, Prod.mk.injEq] at h
      obtain ⟨h1, h2⟩ := h
      subst h1
      subst h2
      exact ⟨Nat.le_refl c, by simp [blobIdsFields]⟩
  | cons kv fs2 ih =>
      obtain ⟨k, v⟩ := kv
      intro c ws c2 h
      rw [show sCloneFields ((k, v) :: fs2) c =
          (match sClone v c with
           | none => none
           | some (w, c3) =>
               match sCloneFields fs2 c3 with
               | none => none
               | some (ws, c4) => some ((k, w) :: ws, c4)) from rfl] at h
      split at h
      · cases h
      · rename_i u cm hv
        split at h
        · cases h
        · rename_i us c4 hvs
          simp only [Option.some.injEq, Prod.mk.injEq] at h
          obtain ⟨h1, h2⟩ := h
          subst h1
          subst h2
          obtain ⟨hle1, hb1⟩ := hm (k, v) (by simp) c u cm hv
          obtain ⟨hle2, hb2⟩ := ih (fun e he => hm e (by simp [he])) cm us c4 hvs
          refine ⟨Nat.le_trans hle1 hle2, ?_⟩
          intro i hi
          simp only [blobIdsFields, List.mem_append] at hi
          rcases hi with hi | hi
          · obtain ⟨ha, hb⟩ := hb1 i hi
            exact ⟨ha, Nat.lt_of_lt_of_le hb hle2⟩
          · obtain ⟨ha, hb⟩ := hb2 i hi
            exact ⟨Nat.le_trans hle1 ha, hb⟩

theorem sClone_range : ∀ v, CloneRange v := by
  intro v
  induction v using valueIndMem with
  | hnull =>
      intro c w c2 h
      simp only [sClone, Option.some.injEq, Prod.mk.injEq] at h
      obtain ⟨h1, h2⟩ := h
      subst h1; subst h2
      exact ⟨Nat.le_refl c, by simp [blobIds]⟩
  | hundef =>
      intro c w c2 h
      simp only [sClone, Option.some.injEq, Prod.mk.injEq] at h
      obtain ⟨h1, h2⟩ := h
      subst h1; subst h2
      exact ⟨Nat.le_refl c, by simp [blobIds]⟩
  | hbool b =>
      intro c w c2 h
      simp only [sClone, Option.some.injEq, Prod.mk.injEq] at h
      obtain ⟨h1, h2⟩ := h
      subst h1; subst h2
      exact ⟨Nat.le_refl c, by simp [blobIds]⟩
  | hnum n =>
      intro c w c2 h
      simp only [sClone, Option.some.injEq, Prod.mk.injEq] at h
      obtain ⟨h1, h2⟩ := h
      subst h1; subst h2
      exact ⟨Nat.le_refl c, by simp [blobIds]⟩
  | hstr s =>
      intro c w c2 h
      simp only [sClone, Option.some.injEq, Prod.mk.injEq] at h
      obtain ⟨h1, h2⟩ := h
      subst h1; subst h2
      exact ⟨Nat.le_refl c, by simp [blobIds]⟩
  | hdate t =>
      intro c w c2 h
      simp only [sClone, Option.some.injEq, Prod.mk.injEq] at h
      obtain ⟨h1, h2⟩ := h
      subst h1; subst h2
      exact ⟨Nat.le_refl c, by simp [blobIds]⟩
  | hblob b =>
      intro c w c2 h
      simp only [sClone, Option.some.injEq, Prod.mk.injEq] at h
      obtain ⟨h1, h2⟩ := h
      subst h1; subst h2
      refine ⟨Nat.le_succ c, ?_⟩
      intro i hi
      simp only [blobIds, List.mem_singleton] at hi
      omega
  | hfunc f => intro c w c2 h; cases h
  | hsym s => intro c w c2 h; cases h
  | hseq w es ihm =>
      intro c w2 c2 h
      rw [show sClone (.vSeq w es) c =
          (match sCloneList es c with
           | none => none
           | some (ws, c3) => some (.vSeq false ws, c3)) from rfl] at h
      cases hl : sCloneList es c with
      | none => rw [hl] at h; cases h
      | some wsc =>
          obtain ⟨ws, c3⟩ := wsc
          rw [hl] at h
          simp only [Option.some.injEq, Prod.mk.injEq] at h
          obtain ⟨h1, h2⟩ := h
          subst h1; subst h2
          obtain ⟨hle, hb⟩ := sCloneList_range es ihm c ws c3 hl
          exact ⟨hle, by simpa [blobIds] using hb⟩
  | hrec w fs ihm =>
      intro c w2 c2 h
      rw [show sClone (.vRec w fs) c =
          (match sCloneFields fs c with
           | none => none
           | some (ws, c3) => some (.vRec false ws, c3)) from rfl] at h
      cases hl : sCloneFields fs c with
      | none => rw [hl] at h; cases h
      | some wsc =>
          obtain ⟨ws, c3⟩ := wsc
          rw [hl] at h
          simp only [Option.some.injEq, Prod.mk.injEq] at h
          obtain ⟨h1, h2⟩ := h
          subst h1; subst h2
          obtain ⟨hle, hb⟩ := sCloneFields_range fs ihm c ws c3 hl
          exact ⟨hle, by simpa [blobIds] using hb⟩

theorem cdpList_blobIds (es : List Value)
    (hm : ∀ e ∈ es, blobIds (createDeepProxy e) = blobIds e) :
    blobIdsList (cdpList es) = blobIdsList es := by
  induction es with
  | nil => rfl
  | cons v vs ih =>
      have hhead : blobIds (if isProxiable v && !isBlobLike v
          then createDeepProxy v else v) = blobIds v := by
        cases hc : (isProxiable v && !isBlobLike v) with
        | true => simpa [hc] using hm v (by simp)
        | false => simp [hc]
      simp only [cdpList, blobIdsList]
      rw [hhead, ih (fun e he => hm e (by simp [he]))]

theorem cdpFields_blobIds (fs : List (String × Value))
    (hm : ∀ kv ∈ fs, blobIds (createDeepProxy kv.2) = blobIds kv.2) :
    blobIdsFields (cdpFields fs) = blobIdsFields fs := by
  induction fs with
  | nil => rfl
  | cons kv rest ih =>
      obtain ⟨k, v⟩ := kv
      have hhead : blobIds (if isProxiable v && !isBlobLike v
          then createDeepProxy v else v) = blobIds v := by
        cases hc : (isProxiable v && !isBlobLike v) with
        | true => simpa [hc] using hm (k, v) (by simp)
        | false => simp [hc]
      simp only [cdpFields, blobIdsFields]
      rw [hhead, ih (fun e he => hm e (by simp [he]))]

theorem blobIds_createDeepProxy : ∀ v, blobIds (createDeepProxy v) = blobIds v := by
  intro v
  induction v using valueIndMem with
  | hnull => rfl
  | hundef => rfl
  | hbool b => rfl
  | hnum n => rfl
  | hstr s => rfl
  | hblob i => rfl
  | hdate t => rfl
  | hfunc i => rfl
  | hsym i => rfl
  | hseq w es ihm =>
      simp only [createDeepProxy, blobIds]
      exact cdpList_blobIds es ihm
  | hrec w fs ihm =>
      simp only [createDeepProxy, blobIds]
      exact cdpFields_blobIds fs ihm

theorem atfSeq_fdBlobIds (p : String) (es : List Value) (hm : ∀ e ∈ es, FdSpec e) :
    ∀ fd i, fdBlobIds (atfSeq fd es p i) = fdBlobIds fd ++ blobIdsList es := by
  induction es with
  | nil => intro fd i; simp [atfSeq, blobIdsList]
  | cons v rest ih =>
      intro fd i
      have ihrest := ih (fun e he => hm e (by simp [he]))
      cases hc : (isProxiable v && !isBlobLike v) with
      | true =>
          have hbl : isBlobLike v = false := by
            cases hb : isBlobLike v
            · rfl
            · rw [hb] at hc; simp at hc
          rw [show atfSeq fd (v :: rest) p i =
              atfSeq (appendToFormData fd v
                (if p = "" then toString i else p ++ "[" ++ toString i ++ "]"))
                rest p (i + 1) by simp [atfSeq, hc]]
          rw [ihrest, hm v (by simp) fd _ (Or.inl hbl)]
          simp [blobIdsList, List.append_assoc]
      | false =>
          cases v with
          | vBlob b =>
              rw [show atfSeq fd (.vBlob b :: rest) p i =
                  atfSeq (fd ++ [((if p = "" then toString i
                    else p ++ "[" ++ toString i ++ "]"), .blob b)]) rest p (i + 1) by
                simp [atfSeq, hc]]
              rw [ihrest]
              simp [fdBlobIds, List.filterMap_append, blobIdsList, blobIds, List.append_assoc]
          | vNull =>
              rw [show atfSeq fd (.vNull :: rest) p i =
                  atfSeq (fd ++ [((if p = "" then toString i
                    else p ++ "[" ++ toString i ++ "]"), .str (jsString .vNull))])
                    rest p (i + 1) by simp [atfSeq, hc]]
              rw [ihrest]
              simp [fdBlobIds, List.filterMap_append, blobIdsList, blobIds]
          | vUndef =>
              rw [show atfSeq fd (.vUndef :: rest) p i =
                  atfSeq (fd ++ [((if p = "" then toString i
                    else p ++ "[" ++ toString i ++ "]"), .str (jsString .vUndef))])
                    rest p (i + 1) by simp [atfSeq, hc]]
              rw [ihrest]
              simp [fdBlobIds, List.filterMap_append, blobIdsList, blobIds]
          | vBool b =>
              rw [show atfSeq fd (.vBool b :: rest) p i =
                  atfSeq (fd ++ [((if p = "" then toString i
                    else p ++ "[" ++ toString i ++ "]"), .str (jsString (.vBool b)))])
                    rest p (i + 1) by simp [atfSeq, hc]]
              rw [ihrest]
              simp [fdBlobIds, List.filterMap_append, blobIdsList, blobIds]
          | vNum n =>
              rw [show atfSeq fd (.vNum n :: rest) p i =
                  atfSeq (fd ++ [((if p = "" then toString i
                    else p ++ "[" ++ toString i ++ "]"), .str (jsString (.vNum n)))])
                    rest p (i + 1) by simp [atfSeq, hc]]
              rw [ihrest]
              simp [fdBlobIds, List.filterMap_append, blobIdsList, blobIds]
          | vStr s =>
              rw [show atfSeq fd (.vStr s :: rest) p i =
                  atfSeq (fd ++ [((if p = "" then toString i
                    else p ++ "[" ++ toString i ++ "]"), .str (jsString (.vStr s)))])
                    rest p (i + 1) by simp [atfSeq, hc]]
              rw [ihrest]
              simp [fdBlobIds, List.filterMap_append, blobIdsList, blobIds]
          | vFunc f =>
              rw [show atfSeq fd (.vFunc f :: rest) p i =
                  atfSeq (fd ++ [((if p = "" then toString i
                    else p ++ "[" ++ toString i ++ "]"), .str (jsString (.vFunc f)))])
                    rest p (i + 1) by simp [atfSeq, hc]]
              rw [ihrest]
              simp [fdBlobIds, List.filterMap_append, blobIdsList, blobIds]
          | vSymbol s =>
              rw [show atfSeq fd (.vSymbol s :: rest) p i =
                  atfSeq (fd ++ [((if p = "" then toString i
                    else p ++ "[" ++ toString i ++ "]"), .str (jsString (.vSymbol s)))])
                    rest p (i + 1) by simp [atfSeq, hc]]
              rw [ihrest]
              simp [fdBlobIds, List.filterMap_append, blobIdsList, blobIds]
          | vSeq w2 es2 => simp [isProxiable, typeofStr, isNullV, isBlobLike] at hc
          | vRec w2 fs2 => simp [isProxiable, typeofStr, isNullV, isBlobLike] at hc
          | vDate t => simp [isProxiable, typeofStr, isNullV, isBlobLike] at hc

theorem atfRec_fdBlobIds (p : String) (fs : List (String × Value))
    (hm : ∀ kv ∈ fs, FdSpec kv.2) :
    ∀ fd, fdBlobIds (atfRec fd fs p) = fdBlobIds fd ++ blobIdsFields fs := by
  induction fs with
  | nil => intro fd; simp [atfRec, blobIdsFields]
  | cons kv rest ih =>
      obtain ⟨k, v⟩ := kv
      intro fd
      have ihrest := ih (fun e he => hm e (by simp [he]))
      cases hc : (isProxiable v && !isBlobLike v) with
      | true =>
          have hbl : isBlobLike v = false := by
            cases hb : isBlobLike v
            · rfl
            · rw [hb] at hc; simp at hc
          rw [show atfRec fd ((k, v) :: rest) p =
              atfRec (appendToFormData fd v
                (if p = "" then k else p ++ "[" ++ k ++ "]")) rest p by
            simp [atfRec, hc]]
          rw [ihrest, hm (k, v) (by simp) fd _ (Or.inl hbl)]
          simp [blobIdsFields, List.append_assoc]
      | false =>
          cases v with
          | vBlob b =>
              rw [show atfRec fd ((k, .vBlob b) :: rest) p =
                  atfRec (fd ++ [((if p = "" then k else p ++ "[" ++ k ++ "]"),
                    .blob b)]) rest p by simp [atfRec, hc]]
              rw [ihrest]
              simp [fdBlobIds, List.filterMap_append, blobIdsFields, blobIds,
                List.append_assoc]
          | vNull =>
              rw [show atfRec fd ((k, .vNull) :: rest) p =
                  atfRec (fd ++ [((if p = "" then k else p ++ "[" ++ k ++ "]"),
                    .str (jsString .vNull))]) rest p by simp [atfRec, hc]]
              rw [ihrest]
              simp [fdBlobIds, List.filterMap_append, blobIdsFields, blobIds]
          | vUndef =>
              rw [show atfRec fd ((k, .vUndef) :: rest) p =
                  atfRec (fd ++ [((if p = "" then k else p ++ "[" ++ k ++ "]"),
                    .str (jsString .vUndef))]) rest p by simp [atfRec, hc]]
              rw [ihrest]
              simp [fdBlobIds, List.filterMap_append, blobIdsFields, blobIds]
          | vBool b =>
              rw [show atfRec fd ((k, .vBool b) :: rest) p =
                  atfRec (fd ++ [((if p = "" then k else p ++ "[" ++ k ++ "]"),
                    .str (jsString (.vBool b)))]) rest p by simp [atfRec, hc]]
              rw [ihrest]
              simp [fdBlobIds, List.filterMap_append, blobIdsFields, blobIds]
          | vNum n =>
              rw [show atfRec fd ((k, .vNum n) :: rest) p =
                  atfRec (fd ++ [((if p = "" then k else p ++ "[" ++ k ++ "]"),
                    .str (jsString (.vNum n)))]) rest p by simp [atfRec, hc]]
              rw [ihrest]
              simp [fdBlobIds, List.filterMap_append, blobIdsFields, blobIds]
          | vStr s =>
              rw [show atfRec fd ((k, .vStr s) :: rest) p =
                  atfRec (fd ++ [((if p = "" then k else p ++ "[" ++ k ++ "]"),
                    .str (jsString (.vStr s)))]) rest p by simp [atfRec, hc]]
              rw [ihrest]
              simp [fdBlobIds, List.filterMap_append, blobIdsFields, blobIds]
          | vFunc f =>
              rw [show atfRec fd ((k, .vFunc f) :: rest) p =
                  atfRec (fd ++ [((if p = "" then k else p ++ "[" ++ k ++ "]"),
                    .str (jsString (.vFunc f)))]) rest p by simp [atfRec, hc]]
              rw [ihrest]
              simp [fdBlobIds, List.filterMap_append, blobIdsFields, blobIds]
          | vSymbol s =>
              rw [show atfRec fd ((k, .vSymbol s) :: rest) p =
                  atfRec (fd ++ [((if p = "" then k else p ++ "[" ++ k ++ "]"),
                    .str (jsString (.vSymbol s)))]) rest p by simp [atfRec, hc]]
              rw [ihrest]
              simp [fdBlobIds, List.filterMap_append, blobIdsFields, blobIds]
          | vSeq w2 es2 => simp [isProxiable, typeofStr, isNullV, isBlobLike] at hc
          | vRec w2 fs2 => simp [isProxiable, typeofStr, isNullV, isBlobLike] at hc
          | vDate t => simp [isProxiable, typeofStr, isNullV, isBlobLike] at hc

theorem fd_spec : ∀ v, FdSpec v := by
  intro v
  induction v using valueIndMem with
  | hnull =>
      intro fd p _
      by_cases hp : p = "" <;>
        simp [appendToFormData, hp, fdBlobIds, List.filterMap_append, blobIds]
  | hundef =>
      intro fd p _
      by_cases hp : p = "" <;>
        simp [appendToFormData, hp, fdBlobIds, List.filterMap_append, blobIds]
  | hbool b =>
      intro fd p _
      by_cases hp : p = "" <;>
        simp [appendToFormData, hp, fdBlobIds, List.filterMap_append, blobIds]
  | hnum n =>
      intro fd p _
      by_cases hp : p = "" <;>
        simp [appendToFormData, hp, fdBlobIds, List.filterMap_append, blobIds]
  | hstr s =>
      intro fd p _
      by_cases hp : p = "" <;>
        simp [appendToFormData, hp, fdBlobIds, List.filterMap_append, blobIds]
  | hfunc f =>
      intro fd p _
      by_cases hp : p = "" <;>
        simp [appendToFormData, hp, fdBlobIds, List.filterMap_append, blobIds]
  | hsym s =>
      intro fd p _
      by_cases hp : p = "" <;>
        simp [appendToFormData, hp, fdBlobIds, List.filterMap_append, blobIds]
  | hdate t =>
      intro fd p _
      simp [appendToFormData, fdBlobIds, blobIds]
  | hblob b =>
      intro fd p hdis
      have hp : ¬(p = "") := by
        rcases hdis with hdis | hdis
        · simp [isBlobLike] at hdis
        · exact hdis
      simp [appendToFormData, hp, fdBlobIds, List.filterMap_append, blobIds]
  | hseq w es ihm =>
      intro fd p _
      simp only [appendToFormData, blobIds]
      exact atfSeq_fdBlobIds p es ihm fd 0
  | hrec w fs ihm =>
      intro fd p _
      simp only [appendToFormData, blobIds]
      exact atfRec_fdBlobIds p fs ihm fd

theorem parse_object_rec {shape : List (String × Schema)} {v w : Value}
    (h : parse (.object shape) v = some w) : ∃ ws, w = .vRec false ws := by
  cases v with
  | vRec w2 fs =>
      rw [show parse (.object shape) (.vRec w2 fs) =
          (parseShape shape fs).map (fun ws => .vRec false ws) by simp [parse]] at h
      cases hps : parseShape shape fs with
      | none => rw [hps] at h; simp at h
      | some ws =>
          rw [hps] at h
          simp only [Option.map_some', Option.some.injEq] at h
          exact ⟨ws, h.symm⟩
  | vNull => simp [parse] at h
  | vUndef => simp [parse] at h
  | vBool b => simp [parse] at h
  | vNum n => simp [parse] at h
  | vStr s => simp [parse] at h
  | vBlob b => simp [parse] at h
  | vSeq w2 es => simp [parse] at h
  | vDate t => simp [parse] at h
  | vFunc f => simp [parse] at h
  | vSymbol s => simp [parse] at h

theorem parse_array_seq {s : Schema} {v w : Value}
    (h : parse (.array s) v = some w) : ∃ ws, w = .vSeq false ws := by
  cases v with
  | vSeq w2 es =>
      rw [show parse (.array s) (.vSeq w2 es) =
          (parseList s es).map (fun ws => .vSeq false ws) by simp [parse]] at h
      cases hps : parseList s es with
      | none => rw [hps] at h; simp at h
      | some ws =>
          rw [hps] at h
          simp only [Option.map_some', Option.some.injEq] at h
          exact ⟨ws, h.symm⟩
  | vNull => simp [parse] at h
  | vUndef => simp [parse] at h
  | vBool b => simp [parse] at h
  | vNum n => simp [parse] at h
  | vStr s2 => simp [parse] at h
  | vBlob b => simp [parse] at h
  | vRec w2 fs => simp [parse] at h
  | vDate t => simp [parse] at h
  | vFunc f => simp [parse] at h
  | vSymbol s2 => simp [parse] at h

theorem sClone_rec {b : Bool} {fs : List (String × Value)} {c c2 : Nat} {w : Value}
    (h : sClone (.vRec b fs) c = some (w, c2)) : ∃ ws, w = .vRec false ws := by
  rw [show sClone (.vRec b fs) c =
      (match sCloneFields fs c with
       | none => none
       | some (ws, c3) => some (.vRec false ws, c3)) from rfl] at h
  split at h
  · cases h
  · rename_i ws c3 hws
    simp only [Option.some.injEq, Prod.mk.injEq] at h
    exact ⟨ws, h.1.symm⟩

theorem sClone_seq {b : Bool} {es : List Value} {c c2 : Nat} {w : Value}
    (h : sClone (.vSeq b es) c = some (w, c2)) : ∃ ws, w = .vSeq false ws := by
  rw [show sClone (.vSeq b es) c =
      (match sCloneList es c with
       | none => none
       | some (ws, c3) => some (.vSeq false ws, c3)) from rfl] at h
  split at h
  · cases h
  · rename_i ws c3 hws
    simp only [Option.some.injEq, Prod.mk.injEq] at h
    exact ⟨ws, h.1.symm⟩

/-- C1 fails as stated: the entry point clones the validated value with the
host structured clone, which duplicates Blob objects; constructing from a
record holding the caller blob of identity 0 yields a handle whose blob has
the fresh identity 1, and render emits that duplicate, not the caller
reference. -/
theorem c1_blob_identity_counterexample :
    frmz (.vRec false [("f", .vBlob 0)]) none 1 = .ok (.vRec true [("f", .vBlob 1)], 2) ∧
    render (.vRec true [("f", .vBlob 1)]) = [("f", .blob 1)] ∧
    blobIds (.vRec true [("f", .vBlob 1)]) = [1] ∧
    blobIds (.vRec false [("f", .vBlob 0)]) = [0] ∧
    ¬ ((1 : Nat) ∈ blobIds (.vRec false [("f", .vBlob 0)])) := by
  refine ⟨?_, rfl, rfl, rfl, by simp [blobIds, blobIdsFields]⟩
  simp [frmz, inferSchema, inferFields, inferClassify, isProxiable, typeofStr, isNullV,
    isBlobLike, parse, parseShape, lookupField, sClone, sCloneFields, createDeepProxy,
    cdpFields]

/-- C1 amended: the construction pipeline severs blob reference identity:
for a Record or Sequence input whose blob identities all lie below the
allocation counter, every blob reachable from the returned handle is a
fresh structured-clone duplicate (its identity is none of the caller's),
and render emits exactly the handle's own blob references, in traversal
order. -/
theorem c1_blob_duplication_amended (v : Value) (c : Nat) (data : Value) (c2 : Nat)
    (hcont : isContainer v = true)
    (hids : ∀ i ∈ blobIds v, i < c)
    (h : frmz v none c = .ok (data, c2)) :
    (∀ i ∈ blobIds data, i ∉ blobIds v) ∧
    fdBlobIds (render data) = blobIds data := by
  have hpx : isProxiable v = true := by
    cases v <;> simp_all [isContainer, isProxiable, typeofStr, isNullV]
  rw [show frmz v none c =
      (match parse (inferSchema v) v with
       | none => .error .schemaValidationError
       | some parsed =>
           match sClone parsed c with
           | none => .error .dataCloneError
           | some (cloned, c3) => .ok (createDeepProxy cloned, c3)) by
    simp [frmz, hpx]] at h
  split at h
  · cases h
  · rename_i parsed hp
    split at h
    · cases h
    · rename_i cloned c3 hsc
      simp only [Except.ok.injEq, Prod.mk.injEq] at h
      obtain ⟨h1, h2⟩ := h
      subst h1
      constructor
      · intro i hi
        rw [blobIds_createDeepProxy] at hi
        have hrange := (sClone_range parsed c cloned c3 hsc).2 i hi
        intro hiv
        have := hids i hiv
        omega
      · have hbl : isBlobLike (createDeepProxy cloned) = false := by
          cases v with
          | vRec w fs =>
              rw [show inferSchema (.vRec w fs) = .object (inferFields fs) from rfl] at hp
              obtain ⟨ws, hws⟩ := parse_object_rec hp
              subst hws
              obtain ⟨ws2, hws2⟩ := sClone_rec hsc
              subst hws2
              rfl
          | vSeq w es =>
              rw [show inferSchema (.vSeq w es) =
                  .array (if (inferList es).length > 0
                    then .union (inferList es) else .unknown) from rfl] at hp
              obtain ⟨ws, hws⟩ := parse_array_seq hp
              subst hws
              obtain ⟨ws2, hws2⟩ := sClone_seq hsc
              subst hws2
              rfl
          | vNull => simp [isContainer] at hcont
          | vUndef => simp [isContainer] at hcont
          | vBool b => simp [isContainer] at hcont
          | vNum n => simp [isContainer] at hcont
          | vStr s => simp [isContainer] at hcont
          | vBlob b => simp [isContainer] at hcont
          | vDate t => simp [isContainer] at hcont
          | vFunc f => simp [isContainer] at hcont
          | vSymbol s => simp [isContainer] at hcont
        have hfd := fd_spec (createDeepProxy cloned) [] "" (Or.inl hbl)
        simpa [render, fdBlobIds] using hfd

theorem c1_blob_duplication_amended_witness :
    isContainer (.vRec false [("f", .vBlob 0)]) = true ∧
    (∀ i ∈ blobIds (.vRec false [("f", .vBlob 0)]), i < 1) ∧
    frmz (.vRec false [("f", .vBlob 0)]) none 1 = .ok (.vRec true [("f", .vBlob 1)], 2) ∧
    (∀ i ∈ blobIds (.vRec true [("f", .vBlob 1)]),
      i ∉ blobIds (.vRec false [("f", .vBlob 0)])) ∧
    fdBlobIds (render (.vRec true [("f", .vBlob 1)])) =
      blobIds (.vRec true [("f", .vBlob 1)]) := by
  have hids : ∀ i ∈ blobIds (.vRec false [("f", .vBlob 0)]), i < 1 := by
    simp [blobIds, blobIdsFields]
  have hfr : frmz (.vRec false [("f", .vBlob 0)]) none 1 =
      .ok (.vRec true [("f", .vBlob 1)], 2) := by
    simp [frmz, inferSchema, inferFields, inferClassify, isProxiable, typeofStr, isNullV,
      isBlobLike, parse, parseShape, lookupField, sClone, sCloneFields, createDeepProxy,
      cdpFields]
  have hmain := c1_blob_duplication_amended (.vRec false [("f", .vBlob 0)]) 1
    (.vRec true [("f", .vBlob 1)]) 2 rfl hids hfr
  exact ⟨rfl, hids, hfr, hmain.1, hmain.2⟩

theorem WfList_mem {es : List Value} (h : WfList es = true) : ∀ e ∈ es, Wf e = true := by
  induction es with
  | nil => intro e he; cases he
  | cons v vs ih =>
      obtain ⟨h1, h2⟩ : Wf v = true ∧ WfList vs = true := by
        simpa [WfList, Bool.and_eq_true] using h
      intro e he
      rcases List.mem_cons.mp he with he | he
      · rw [he]; exact h1
      · exact ih h2 e he

theorem WfFields_mem {fs : List (String × Value)} (h : WfFields fs = true) :
    ∀ kv ∈ fs, Wf kv.2 = true := by
  induction fs with
  | nil => intro kv hkv; cases hkv
  | cons kv2 rest ih =>
      obtain ⟨k, v⟩ := kv2
      obtain ⟨h1, h2⟩ : Wf v = true ∧ WfFields rest = true := by
        simpa [WfFields, Bool.and_eq_true] using h
      intro kv hkv
      rcases List.mem_cons.mp hkv with hkv | hkv
      · rw [hkv]; exact h1
      · exact ih h2 kv hkv

theorem parseFirst_isSome_of_mem {ss : List Schema} {s : Schema} {v : Value}
    (hmem : s ∈ ss) (hs : (parse s v).isSome = true) :
    (parseFirst ss v).isSome = true := by
  induction ss with
  | nil => cases hmem
  | cons s2 rest ih =>
      rw [show parseFirst (s2 :: rest) v =
          (match parse s2 v with
           | some w => some w
           | none => parseFirst rest v) by rw [parseFirst]]
      split
      · simp
      · rename_i hnone
        rcases List.mem_cons.mp hmem with he | he
        · rw [he] at hs
          rw [hnone] at hs
          simp at hs
        · exact ih he

theorem parseList_isSome {s : Schema} :
    ∀ es : List Value, (∀ e ∈ es, (parse s e).isSome = true) →
      (parseList s es).isSome = true := by
  intro es
  induction es with
  | nil => intro _; simp [parseList]
  | cons v vs ih =>
      intro hm
      rw [show parseList s (v :: vs) =
          (match parse s v with
           | none => none
           | some w =>
               match parseList s vs with
               | none => none
               | some ws => some (w :: ws)) by rw [parseList]]
      split
      · rename_i hnone
        have := hm v (by simp)
        rw [hnone] at this
        simp at this
      · rename_i w hp
        split
        · rename_i hnone
          have := ih (fun e he => hm e (by simp [he]))
          rw [hnone] at this
          simp at this
        · simp

theorem lookupField_self_of_keysFresh :
    ∀ (fs : List (String × Value)), keysFresh fs = true →
      ∀ kv ∈ fs, lookupField fs kv.1 = some kv.2 := by
  intro fs
  induction fs with
  | nil => intro _ kv hkv; cases hkv
  | cons kv2 rest ih =>
      obtain ⟨k, v⟩ := kv2
      intro hf kv hkv
      obtain ⟨hnone, hfr⟩ : (rest.any (fun kv => kv.1 = k)) = false ∧ keysFresh rest = true := by
        simpa [keysFresh, Bool.and_eq_true, Bool.not_eq_true'] using hf
      rcases List.mem_cons.mp hkv with he | he
      · rw [he]
        simp [lookupField]
      · have hne : ¬(kv.1 = k) := by
          intro hcontra
          have hany : rest.any (fun kv2 => kv2.1 = k) = true := by
            apply List.any_eq_true.mpr
            exact ⟨kv, he, by simp [hcontra]⟩
          rw [hany] at hnone
          cases hnone
        have hne2 : ¬(k = kv.1) := fun hcontra => hne hcontra.symm
        rw [show lookupField ((k, v) :: rest) kv.1 = lookupField rest kv.1 by
          simp [lookupField, hne2]]
        exact ih hfr kv he

theorem parseShape_isSome (fs : List (String × Value)) :
    ∀ sub : List (String × Value),
      (∀ kv ∈ sub, lookupField fs kv.1 = some kv.2) →
      (∀ kv ∈ sub, (parse (inferElement kv.2) kv.2).isSome = true) →
      (parseShape (sub.map (fun kv => (kv.1, inferElement kv.2))) fs).isSome = true := by
  intro sub
  induction sub with
  | nil => intro _ _; simp [parseShape]
  | cons kv rest ih =>
      obtain ⟨k, v⟩ := kv
      intro hlk hp
      rw [show (((k, v) :: rest).map (fun kv => (kv.1, inferElement kv.2))) =
          (k, inferElement v) :: rest.map (fun kv => (kv.1, inferElement kv.2)) from rfl]
      rw [show parseShape ((k, inferElement v) ::
            rest.map (fun kv => (kv.1, inferElement kv.2))) fs =
          (match parse (inferElement v) ((lookupField fs k).getD .vUndef) with
           | none => none
           | some w =>
               match parseShape (rest.map (fun kv => (kv.1, inferElement kv.2))) fs with
               | none => none
               | some ws => some ((k, w) :: ws)) by rw [parseShape]]
      rw [show (lookupField fs k).getD .vUndef = v by
        rw [hlk (k, v) (by simp)]; rfl]
      split
      · rename_i hnone
        have := hp (k, v) (by simp)
        simp only at this
        rw [hnone] at this
        simp at this
      · rename_i w hw
        split
        · rename_i hnone
          have := ih (fun kv2 h2 => hlk kv2 (by simp [h2]))
            (fun kv2 h2 => hp kv2 (by simp [h2]))
          rw [hnone] at this
          simp at this
        · simp

theorem isSome_map_opt {α β : Type} (f : α → β) (o : Option α) :
    (o.map f).isSome = o.isSome := by cases o <;> rfl

theorem parse_inferElement_isSome : ∀ v, Wf v = true →
    (parse (inferElement v) v).isSome = true := by
  intro v
  induction v using valueIndMem with
  | hnull =>
      intro _
      simp [inferElement, inferClassify, isProxiable, typeofStr, isNullV, isBlobLike, parse]
  | hundef =>
      intro _
      simp [inferElement, inferClassify, isProxiable, typeofStr, isNullV, isBlobLike, parse]
  | hbool b =>
      intro _
      simp [inferElement, inferClassify, isProxiable, typeofStr, isNullV, isBlobLike, parse]
  | hnum n =>
      intro _
      simp [inferElement, inferClassify, isProxiable, typeofStr, isNullV, isBlobLike, parse]
  | hstr s =>
      intro _
      simp [inferElement, inferClassify, isProxiable, typeofStr, isNullV, isBlobLike, parse]
  | hblob b =>
      intro _
      simp [inferElement, inferClassify, isProxiable, typeofStr, isNullV, isBlobLike, parse]
  | hdate t => intro h; simp [Wf] at h
  | hfunc f => intro h; simp [Wf] at h
  | hsym s => intro h; simp [Wf] at h
  | hseq w es ihm =>
      intro hwf
      have hwl : WfList es = true := by simpa [Wf] using hwf
      have helem := WfList_mem hwl
      rw [show inferElement (.vSeq w es) = inferSchema (.vSeq w es) by
        simp [inferElement, isProxiable, typeofStr, isNullV, isBlobLike]]
      rw [show inferSchema (.vSeq w es) =
          .array (if (inferList es).length > 0
            then .union (inferList es) else .unknown) from rfl]
      cases es with
      | nil => simp [inferList, parse, parseList]
      | cons e rest =>
          rw [show (if (inferList (e :: rest)).length > 0
              then Schema.union (inferList (e :: rest)) else Schema.unknown) =
            .union (inferList (e :: rest)) by simp [inferList]]
          rw [show parse (.array (.union (inferList (e :: rest)))) (.vSeq w (e :: rest)) =
              (parseList (.union (inferList (e :: rest))) (e :: rest)).map
                (fun ws => .vSeq false ws) by simp [parse]]
          rw [isSome_map_opt]
          apply parseList_isSome
          intro e2 he2
          rw [show parse (.union (inferList (e :: rest))) e2 =
              parseFirst (inferList (e :: rest)) e2 by simp [parse]]
          apply parseFirst_isSome_of_mem (s := inferElement e2)
          · rw [inferList_eq_map]
            exact List.mem_map_of_mem _ he2
          · exact ihm e2 he2 (helem e2 he2)
  | hrec w fs ihm =>
      intro hwf
      obtain ⟨hkf, hwfl⟩ : keysFresh fs = true ∧ WfFields fs = true := by
        simpa [Wf, Bool.and_eq_true] using hwf
      rw [show inferElement (.vRec w fs) = inferSchema (.vRec w fs) by
        simp [inferElement, isProxiable, typeofStr, isNullV, isBlobLike]]
      rw [show inferSchema (.vRec w fs) = .object (inferFields fs) from rfl]
      rw [inferFields_eq_map]
      rw [show parse (.object (fs.map (fun kv => (kv.1, inferElement kv.2)))) (.vRec w fs) =
          (parseShape (fs.map (fun kv => (kv.1, inferElement kv.2))) fs).map
            (fun ws => .vRec false ws) by simp [parse]]
      rw [isSome_map_opt]
      exact parseShape_isSome fs fs (lookupField_self_of_keysFresh fs hkf)
        (fun kv hkv => ihm kv hkv (WfFields_mem hwfl kv hkv))

theorem inferElement_container {v : Value} (h : isContainer v = true) :
    inferElement v = inferSchema v := by
  cases v <;> simp_all [isContainer, inferElement, isProxiable, typeofStr, isNullV, isBlobLike]

/-- C9 fails as stated: for the well-formed sequence of two records with
differing key sets, the inferred union tries the first record's object
schema first; it accepts the second record by stripping its extra field,
so the round trip accepts but returns a structurally different value. -/
theorem c9_round_trip_counterexample :
    Wf (.vSeq false [.vRec false [("a", .vNum 1)],
                     .vRec false [("a", .vNum 2), ("b", .vNum 3)]]) = true ∧
    parse (inferSchema (.vSeq false [.vRec false [("a", .vNum 1)],
                                     .vRec false [("a", .vNum 2), ("b", .vNum 3)]]))
          (.vSeq false [.vRec false [("a", .vNum 1)],
                        .vRec false [("a", .vNum 2), ("b", .vNum 3)]]) =
      some (.vSeq false [.vRec false [("a", .vNum 1)], .vRec false [("a", .vNum 2)]]) ∧
    (Value.vSeq false [.vRec false [("a", .vNum 1)], .vRec false [("a", .vNum 2)]]) ≠
      .vSeq false [.vRec false [("a", .vNum 1)], .vRec false [("a", .vNum 2), ("b", .vNum 3)]] := by
  refine ⟨rfl, ?_, by simp⟩
  simp [inferSchema, inferList, inferFields, inferClassify, isProxiable, typeofStr,
    isNullV, isBlobLike, parse, parseList, parseFirst, parseShape, lookupField]

/-- C9 amended: for every well-formed Record or Sequence composed only of
primitives, nested Records with distinct keys, nested Sequences and blob
leaves, the round trip parse (infer v) v accepts v; the accepted value can
differ from v only by the validator's union-order key stripping exhibited
in the counterexample. -/
theorem c9_inference_accepts_amended (v : Value) (hwf : Wf v = true)
    (hc : isContainer v = true) : (parse (inferSchema v) v).isSome = true := by
  rw [← inferElement_container hc]
  exact parse_inferElement_isSome v hwf

theorem c9_inference_accepts_amended_witness :
    Wf (.vRec false [("n", .vNum 1)]) = true ∧
    isContainer (.vRec false [("n", .vNum 1)]) = true ∧
    (parse (inferSchema (.vRec false [("n", .vNum 1)]))
      (.vRec false [("n", .vNum 1)])).isSome = true :=
  ⟨rfl, rfl, c9_inference_accepts_amended (.vRec false [("n", .vNum 1)]) rfl rfl⟩

/-- C10: flattening appends no entry for or under an empty Record or an
empty Sequence, wherever it occurs; in particular a record of one empty
record field and one empty sequence field renders to the empty transport
object. -/
theorem c10_empty_containers_omitted :
    (∀ w fd p, appendToFormData fd (.vRec w []) p = fd) ∧
    (∀ w fd p, appendToFormData fd (.vSeq w []) p = fd) ∧
    render (.vRec true [("a", .vRec true []), ("b", .vSeq true [])]) = [] := by
  exact ⟨fun w fd p => rfl, fun w fd p => rfl, rfl⟩

end Frmz
